import Mathlib

set_option maxRecDepth 40000

/-!
# Verification of the recipe response parser

A shallow embedding of `src/response_parser.py` (class `RecipeJSONParser`)
together with the `ParsedRecipe` data model of `src/models.py`, and proofs of
the specification's claims about it.

Modelling conventions:
* Python strings are `List Char` internally, `String` at the API boundary.
* Python's `json.loads` is embedded as a fuel-indexed recursive decoder
  (`jsonLoads`) following the grammar accepted by `json.decoder` in its
  default configuration (strict strings, `NaN`/`Infinity` constants,
  objects decoded into insertion-ordered maps with last-key-wins updates).
  CPython's recursion limit (`RecursionError`) is a machine resource bound
  and is not modelled; everything else the decoder accepts or rejects is.
* Python `re` patterns used by the source are embedded either as dedicated
  deterministic scanners (when the pattern admits no real backtracking) or
  through a small backtracking regex engine (`reMatch`) with the same
  leftmost-greedy semantics as `re.match` for the constructs used
  (character classes, concatenation, greedy `?`, greedy `+`/`*` over a
  character class, `$`).
* Character classes `\s`, `\w`, `\d`, `str.lower`, `str.strip`, `str.title`
  are modelled on their ASCII fragments; all inputs in the claims are ASCII
  apart from the bullet `•`, which is handled literally.
* Exceptions are modelled with `Except`: the decoder returns a
  `JSONDecodeError`-style failure, and `_parse_json_to_recipe` can fail with
  an `AttributeError` when handed a non-dict, exactly the two failure
  channels of the Python code reachable from `parse_response`.
-/

namespace RecipeParser

/-! ## Character-level helpers -/

/-- The ASCII fragment of Python's `\s` class / `str.strip` default set. -/
def isPySpace (c : Char) : Bool :=
  c = ' ' || c = '\t' || c = '\n' || c = '\r' || c = '\x0b' || c = '\x0c'

/-- JSON inter-token whitespace as skipped by `json.decoder` (`[ \t\n\r]`). -/
def isJsonWs (c : Char) : Bool :=
  c = ' ' || c = '\t' || c = '\n' || c = '\r'

/-- ASCII digit, Python's `\d` on ASCII input. -/
def isDigitC (c : Char) : Bool := '0' ≤ c && c ≤ '9'

/-- ASCII fragment of Python's `\w` class (`[A-Za-z0-9_]`). -/
def isWordC (c : Char) : Bool :=
  ('a' ≤ c && c ≤ 'z') || ('A' ≤ c && c ≤ 'Z') || isDigitC c || c = '_'

/-- ASCII lowercasing, the fragment of `str.lower` exercised here. -/
def lowerC (c : Char) : Char :=
  if 'A' ≤ c && c ≤ 'Z' then Char.ofNat (c.toNat + 32) else c

/-- ASCII uppercasing (used by the model of `str.title`). -/
def upperC (c : Char) : Char :=
  if 'a' ≤ c && c ≤ 'z' then Char.ofNat (c.toNat - 32) else c

/-- ASCII letter test (used by the model of `str.title`). -/
def isAsciiAlpha (c : Char) : Bool :=
  ('a' ≤ c && c ≤ 'z') || ('A' ≤ c && c ≤ 'Z')

/-- `str.strip()` (both-ends whitespace strip). -/
def pyStrip (l : List Char) : List Char :=
  ((l.dropWhile isPySpace).reverse.dropWhile isPySpace).reverse

/-- `text.split('\n')`: every line, trailing empty piece preserved. -/
def splitNL : List Char → List (List Char)
  | [] => [[]]
  | c :: rest =>
    if c = '\n' then [] :: splitNL rest
    else
      match splitNL rest with
      | h :: t => (c :: h) :: t
      | [] => [[c]]

/-- Does `pat` occur at the start of `l`? (used by `containsSub`). -/
def startsWithL : List Char → List Char → Bool
  | _, [] => true
  | [], _ :: _ => false
  | c :: cs, p :: ps => c = p && startsWithL cs ps

/-- Python's `in` substring test: does `pat` occur anywhere inside `l`? -/
def containsSub : List Char → List Char → Bool
  | l, pat =>
    if startsWithL l pat then true
    else
      match l with
      | [] => false
      | _ :: rest => containsSub rest pat

/-- Index of the first occurrence of `pat` inside `l`, if any. -/
def findSub : List Char → List Char → Option Nat
  | l, pat =>
    if startsWithL l pat then some 0
    else
      match l with
      | [] => none
      | _ :: rest => (findSub rest pat).map (· + 1)

/-- Index of the first occurrence of character `c`, if any. -/
def idxOfC (c : Char) : List Char → Option Nat
  | [] => none
  | x :: rest => if x = c then some 0 else (idxOfC c rest).map (· + 1)

/-- Index of the last occurrence of character `c`, if any. -/
def lastIdxOfC (c : Char) (l : List Char) : Option Nat :=
  (idxOfC c l.reverse).map (fun i => l.length - 1 - i)

/-- `str.title()` on the lowercase-ASCII vocabulary used by the source:
a letter is uppercased when it does not follow another letter. -/
def pyTitleGo : Bool → List Char → List Char
  | _, [] => []
  | prevAlpha, c :: rest =>
    (if isAsciiAlpha c && !prevAlpha then upperC c else c) ::
      pyTitleGo (isAsciiAlpha c) rest

/-- `str.title()` (ASCII model). -/
def pyTitle (l : List Char) : List Char := pyTitleGo false l

/-- `str.replace(a, b)` for single characters. -/
def replaceC (a b : Char) (l : List Char) : List Char :=
  l.map (fun c => if c = a then b else c)

/-! ## Decoded JSON values

The dynamic values produced by `json.loads`: `None`, `bool`, `int`, `float`,
`str`, `list`, `dict`. Python floats are carried as their source lexeme
(floating point itself is not modelled; no claim depends on a float value).
A `dict` is an insertion-ordered association list with distinct keys,
maintained by `insertKV` below exactly as CPython dicts maintain it. -/

inductive JVal where
  | null
  | bool (b : Bool)
  | int (n : Int)
  | float (lex : String)
  | str (s : String)
  | arr (elems : List JVal)
  | obj (members : List (String × JVal))

mutual

def JVal.beq : JVal → JVal → Bool
  | .null, .null => true
  | .bool a, .bool b => a == b
  | .int a, .int b => a == b
  | .float a, .float b => a == b
  | .str a, .str b => a == b
  | .arr a, .arr b => JVal.beqList a b
  | .obj a, .obj b => JVal.beqObj a b
  | _, _ => false

def JVal.beqList : List JVal → List JVal → Bool
  | [], [] => true
  | x :: xs, y :: ys => JVal.beq x y && JVal.beqList xs ys
  | _, _ => false

def JVal.beqObj : List (String × JVal) → List (String × JVal) → Bool
  | [], [] => true
  | (k₁, v₁) :: xs, (k₂, v₂) :: ys => k₁ == k₂ && JVal.beq v₁ v₂ && JVal.beqObj xs ys
  | _, _ => false

end

mutual

theorem JVal.beq_iff : ∀ a b : JVal, JVal.beq a b = true ↔ a = b
  | .null, b => by cases b <;> simp [JVal.beq]
  | .bool x, b => by cases b <;> simp [JVal.beq]
  | .int x, b => by cases b <;> simp [JVal.beq]
  | .float x, b => by cases b <;> simp [JVal.beq]
  | .str x, b => by cases b <;> simp [JVal.beq]
  | .arr x, b => by
      cases b <;> simp [JVal.beq]
      exact JVal.beqList_iff x _
  | .obj x, b => by
      cases b <;> simp [JVal.beq]
      exact JVal.beqObj_iff x _

theorem JVal.beqList_iff : ∀ a b : List JVal, JVal.beqList a b = true ↔ a = b
  | [], [] => by simp [JVal.beqList]
  | [], _ :: _ => by simp [JVal.beqList]
  | _ :: _, [] => by simp [JVal.beqList]
  | x :: xs, y :: ys => by
      simp [JVal.beqList, JVal.beq_iff x y, JVal.beqList_iff xs ys]

theorem JVal.beqObj_iff : ∀ a b : List (String × JVal), JVal.beqObj a b = true ↔ a = b
  | [], [] => by simp [JVal.beqObj]
  | [], _ :: _ => by simp [JVal.beqObj]
  | _ :: _, [] => by simp [JVal.beqObj]
  | (k₁, v₁) :: xs, (k₂, v₂) :: ys => by
      simp [JVal.beqObj, JVal.beq_iff v₁ v₂, JVal.beqObj_iff xs ys, and_assoc]

end

instance : DecidableEq JVal := fun a b =>
  decidable_of_iff (JVal.beq a b = true) (JVal.beq_iff a b)

deriving instance DecidableEq for Except

/-- `d.get(k, default)` lookup: value of the first pair with key `k`. -/
def getKV (m : List (String × JVal)) (k : String) : Option JVal :=
  List.lookup k m

/-- `d.get(k, default)`. -/
def getD (m : List (String × JVal)) (k : String) (d : JVal) : JVal :=
  (getKV m k).getD d

/-- CPython dict insertion: replace in place if the key exists, else append.
Used by the JSON decoder to build objects (last duplicate key wins, first
occurrence keeps its position). -/
def insertKV (m : List (String × JVal)) (k : String) (v : JVal) :
    List (String × JVal) :=
  if m.any (fun p => p.1 = k) then
    m.map (fun p => if p.1 = k then (k, v) else p)
  else m ++ [(k, v)]

/-- Python `str(int)`. -/
def intStr (n : Int) : String := toString n

/-- Escapes inside a single-quoted Python `repr` string literal. -/
def pyReprEsc : List Char → List Char
  | [] => []
  | c :: rest =>
    (if c = '\\' then ['\\', '\\']
     else if c = '\'' then ['\\', '\'']
     else if c = '\n' then ['\\', 'n']
     else if c = '\t' then ['\\', 't']
     else if c = '\r' then ['\\', 'r']
     else [c]) ++ pyReprEsc rest

mutual

/-- Python `str()` applied to a decoded JSON value, as used by the source's
coercions `str(data.get(...))`, `[str(x) for x in ...]`,
`{k: str(v) for ...}`. For floats the source lexeme stands in for CPython's
`repr` rounding (no claim depends on a float's printed form). -/
def pyStr : JVal → String
  | .null => "None"
  | .bool true => "True"
  | .bool false => "False"
  | .int n => intStr n
  | .float lex => lex
  | .str s => s
  | .arr l => "[" ++ pyReprList l ++ "]"
  | .obj m => "\x7b" ++ pyReprObj m ++ "\x7d"

/-- Python `repr()` of a decoded JSON value (reached by `str` on containers).
String quoting is modelled with single quotes and backslash escapes for
`\`, `'`, newline, tab, return — the cases exercised by ASCII data; the
claims never evaluate `repr` on exotic strings. -/
def pyRepr : JVal → String
  | .null => "None"
  | .bool true => "True"
  | .bool false => "False"
  | .int n => intStr n
  | .float lex => lex
  | .str s => "'" ++ String.mk (pyReprEsc s.data) ++ "'"
  | .arr l => "[" ++ pyReprList l ++ "]"
  | .obj m => "\x7b" ++ pyReprObj m ++ "\x7d"

def pyReprList : List JVal → String
  | [] => ""
  | [x] => pyRepr x
  | x :: rest => pyRepr x ++ ", " ++ pyReprList rest

def pyReprObj : List (String × JVal) → String
  | [] => ""
  | [(k, v)] => "'" ++ k ++ "': " ++ pyRepr v
  | (k, v) :: rest => "'" ++ k ++ "': " ++ pyRepr v ++ ", " ++ pyReprObj rest

end

/-! ## The embedded `json.loads`

A faithful model of `json.decoder` in its default configuration: JSON
whitespace between tokens, strict strings (raw control characters rejected,
only the standard escapes accepted), the `NaN` / `Infinity` / `-Infinity`
constants, the `(0|[1-9]\d*)(\.\d+)?([eE][+-]?\d+)?` number grammar, objects
with string keys built by insertion-ordered last-wins updates, and an
"extra data" check after the top-level value. Recursion is fuel-indexed
(`jsonLoads` supplies more fuel than any input can consume); CPython's
recursion limit is a machine bound outside the model. A `\uXXXX` escape
denoting a lone surrogate — a Python string value with no Unicode
scalar counterpart — is represented by U+FFFD. -/

inductive JErr where
  | expectingValue
  | unterminatedString
  | invalidControl
  | invalidEscape
  | expectingName
  | expectingColon
  | expectingDelim
  | extraData
  deriving DecidableEq

/-- Skip JSON inter-token whitespace. -/
def skipWs (cs : List Char) : List Char := cs.dropWhile isJsonWs

/-- Hex digit value. -/
def hexVal? (c : Char) : Option Nat :=
  if '0' ≤ c && c ≤ '9' then some (c.toNat - 48)
  else if 'a' ≤ c && c ≤ 'f' then some (c.toNat - 87)
  else if 'A' ≤ c && c ≤ 'F' then some (c.toNat - 55)
  else none

/-- Four hex digits. -/
def hex4 (a b c d : Char) : Option Nat :=
  match hexVal? a, hexVal? b, hexVal? c, hexVal? d with
  | some x, some y, some z, some w => some (((x * 16 + y) * 16 + z) * 16 + w)
  | _, _, _, _ => none

/-- The character a decoded `\uXXXX` codepoint stands for; lone surrogates
(representable in Python, not as Unicode scalars) become U+FFFD. -/
def jsonChar (n : Nat) : Char :=
  if n < 0xd800 ∨ (0xdfff < n ∧ n < 0x110000) then Char.ofNat n else '�'

mutual

/-- String scanner, positioned after an opening quote, accumulating decoded
characters in reverse. Fuel-indexed for structural recursion; callers supply
more fuel than the input length, so the `0` branch is unreachable. -/
def scanStr : Nat → List Char → List Char → Except JErr (String × List Char)
  | 0, _, _ => .error .unterminatedString
  | fuel + 1, acc, cs =>
    match cs with
    | [] => .error .unterminatedString
    | '"' :: rest => .ok (String.mk acc.reverse, rest)
    | '\\' :: rest => scanEsc fuel acc rest
    | c :: rest =>
      if c.toNat < 0x20 then .error .invalidControl
      else scanStr fuel (c :: acc) rest

/-- Escape handling, positioned after a backslash. -/
def scanEsc : Nat → List Char → List Char → Except JErr (String × List Char)
  | 0, _, _ => .error .unterminatedString
  | fuel + 1, acc, cs =>
    match cs with
    | [] => .error .unterminatedString
    | 'u' :: a :: b :: c :: d :: rest4 =>
      (match hex4 a b c d with
       | none => .error .invalidEscape
       | some n =>
         if 0xd800 ≤ n && n ≤ 0xdbff then
           match rest4 with
           | x1 :: x2 :: a2 :: b2 :: c2 :: d2 :: rest10 =>
             if x1 = '\\' && x2 = 'u' then
               match hex4 a2 b2 c2 d2 with
               | some m =>
                 if 0xdc00 ≤ m && m ≤ 0xdfff then
                   scanStr fuel
                     (jsonChar (0x10000 + (n - 0xd800) * 0x400 + (m - 0xdc00)) :: acc) rest10
                 else scanStr fuel (jsonChar n :: acc) (x1 :: x2 :: a2 :: b2 :: c2 :: d2 :: rest10)
               | none =>
                 scanStr fuel (jsonChar n :: acc) (x1 :: x2 :: a2 :: b2 :: c2 :: d2 :: rest10)
             else scanStr fuel (jsonChar n :: acc) (x1 :: x2 :: a2 :: b2 :: c2 :: d2 :: rest10)
           | _ => scanStr fuel (jsonChar n :: acc) rest4
         else scanStr fuel (jsonChar n :: acc) rest4)
    | 'u' :: _ => .error .invalidEscape
    | e :: rest =>
      if e = '"' then scanStr fuel ('"' :: acc) rest
      else if e = '\\' then scanStr fuel ('\\' :: acc) rest
      else if e = '/' then scanStr fuel ('/' :: acc) rest
      else if e = 'b' then scanStr fuel ('\x08' :: acc) rest
      else if e = 'f' then scanStr fuel ('\x0c' :: acc) rest
      else if e = 'n' then scanStr fuel ('\n' :: acc) rest
      else if e = 'r' then scanStr fuel ('\r' :: acc) rest
      else if e = 't' then scanStr fuel ('\t' :: acc) rest
      else .error .invalidEscape

end

/-- Digit-run value. -/
def natOfDigits (ds : List Char) : Nat :=
  ds.foldl (fun acc c => acc * 10 + (c.toNat - 48)) 0

/-- The number grammar `(-?(0|[1-9]\d*))(\.\d+)?([eE][-+]?\d+)?` of
`json.scanner`, matched at the current position. Integer literals become
`JVal.int`; a fraction or exponent makes the value a float, carried as its
lexeme. Returns the value and the rest of the input. -/
def parseNum (cs : List Char) : Except JErr (JVal × List Char) :=
  let (neg, body) :=
    match cs with
    | '-' :: rest => (true, rest)
    | _ => (false, cs)
  let ds := body.takeWhile isDigitC
  if ds = [] then .error .expectingValue
  else
    let intDigits := if ds.headD ' ' = '0' then ['0'] else ds
    let afterInt := body.drop intDigits.length
    let (fracDigits, afterFrac) :=
      match afterInt with
      | '.' :: r =>
        let fs := r.takeWhile isDigitC
        if fs = [] then (([] : List Char), afterInt) else ('.' :: fs, r.drop fs.length)
      | _ => ([], afterInt)
    let (expDigits, afterExp) :=
      match afterFrac with
      | e :: r =>
        if e = 'e' || e = 'E' then
          let (sgn, r2) :=
            match r with
            | s :: r2 => if s = '+' || s = '-' then ([s], r2) else (([] : List Char), r)
            | [] => ([], r)
          let es := r2.takeWhile isDigitC
          if es = [] then (([] : List Char), afterFrac)
          else (e :: sgn ++ es, r2.drop es.length)
        else ([], afterFrac)
      | [] => ([], afterFrac)
    if fracDigits = [] && expDigits = [] then
      let v : Int := Int.ofNat (natOfDigits intDigits)
      .ok (.int (if neg then -v else v), afterInt)
    else
      .ok (.float (String.mk ((if neg then ['-'] else []) ++ intDigits ++ fracDigits ++ expDigits)),
           afterExp)

mutual

/-- One JSON value at the current (non-whitespace) position. -/
def parseVal : Nat → List Char → Except JErr (JVal × List Char)
  | 0, _ => .error .expectingValue
  | fuel + 1, cs =>
    match cs with
    | '{' :: rest => parseObj fuel (skipWs rest)
    | '[' :: rest => parseArr fuel (skipWs rest)
    | '"' :: rest => (scanStr (rest.length + 1) [] rest).map (fun p => (.str p.1, p.2))
    | 't' :: 'r' :: 'u' :: 'e' :: rest => .ok (.bool true, rest)
    | 'f' :: 'a' :: 'l' :: 's' :: 'e' :: rest => .ok (.bool false, rest)
    | 'n' :: 'u' :: 'l' :: 'l' :: rest => .ok (.null, rest)
    | 'N' :: 'a' :: 'N' :: rest => .ok (.float "nan", rest)
    | 'I' :: 'n' :: 'f' :: 'i' :: 'n' :: 'i' :: 't' :: 'y' :: rest =>
      .ok (.float "inf", rest)
    | '-' :: 'I' :: 'n' :: 'f' :: 'i' :: 'n' :: 'i' :: 't' :: 'y' :: rest =>
      .ok (.float "-inf", rest)
    | _ => parseNum cs

/-- Object body, positioned after `{` with whitespace skipped. -/
def parseObj : Nat → List Char → Except JErr (JVal × List Char)
  | 0, _ => .error .expectingValue
  | fuel + 1, cs =>
    match cs with
    | c :: rest =>
      if c = '}' then .ok (.obj [], rest)
      else if c = '"' then parseMembers fuel [] rest
      else .error .expectingName
    | [] => .error .expectingName

/-- Members loop, positioned after the opening quote of a key. -/
def parseMembers : Nat → List (String × JVal) → List Char →
    Except JErr (JVal × List Char)
  | 0, _, _ => .error .expectingValue
  | fuel + 1, acc, cs =>
    match scanStr (cs.length + 1) [] cs with
    | .error e => .error e
    | .ok (k, r1) =>
      match skipWs r1 with
      | ':' :: r2 =>
        match parseVal fuel (skipWs r2) with
        | .error e => .error e
        | .ok (v, r3) =>
          let acc' := insertKV acc k v
          match skipWs r3 with
          | '}' :: r4 => .ok (.obj acc', r4)
          | ',' :: r4 =>
            match skipWs r4 with
            | '"' :: r5 => parseMembers fuel acc' r5
            | _ => .error .expectingName
          | _ => .error .expectingDelim
      | _ => .error .expectingColon

/-- Array body, positioned after `[` with whitespace skipped. -/
def parseArr : Nat → List Char → Except JErr (JVal × List Char)
  | 0, _ => .error .expectingValue
  | fuel + 1, cs =>
    match cs with
    | c :: rest =>
      if c = ']' then .ok (.arr [], rest)
      else parseElems fuel [] (c :: rest)
    | [] => parseElems fuel [] []

/-- Elements loop, positioned at the start of an element. -/
def parseElems : Nat → List JVal → List Char → Except JErr (JVal × List Char)
  | 0, _, _ => .error .expectingValue
  | fuel + 1, acc, cs =>
    match parseVal fuel cs with
    | .error e => .error e
    | .ok (v, r1) =>
      match skipWs r1 with
      | ']' :: r2 => .ok (.arr (acc ++ [v]), r2)
      | ',' :: r2 => parseElems fuel (acc ++ [v]) (skipWs r2)
      | _ => .error .expectingDelim

end

/-- `json.loads`: skip leading whitespace, decode one value, reject
trailing non-whitespace ("Extra data"). The fuel `3 * length + 3` exceeds
what any input can consume, so the `0`-fuel branch is unreachable. -/
def jsonLoads (s : String) : Except JErr JVal :=
  let cs := skipWs s.data
  match parseVal (3 * cs.length + 3) cs with
  | .error e => .error e
  | .ok (v, rest) => if skipWs rest = [] then .ok v else .error .extraData

/-! ## A backtracking regex engine

Covers exactly the constructs appearing in the source's ingredient patterns
— character classes, concatenation, greedy `?`, greedy `+` and `*` over a
character class, numbered groups, `$` — with Python `re`'s leftmost-greedy
backtracking order: a greedy repetition tries its longest viable prefix
first, an option tries presence before absence, and the continuation runs
over the remaining alternatives on failure. -/

/-- The three capture groups used by the ingredient patterns. -/
structure Caps where
  g1 : List Char
  g2 : List Char
  g3 : List Char

/-- Record group `i`'s captured span. -/
def setCap (caps : Caps) (i : Nat) (s : List Char) : Caps :=
  if i = 1 then { caps with g1 := s }
  else if i = 2 then { caps with g2 := s }
  else { caps with g3 := s }

inductive RE where
  | cls (p : Char → Bool)
  | seq (a b : RE)
  | opt (a : RE)
  | plus (p : Char → Bool)
  | star (p : Char → Bool)
  | grp (i : Nat) (a : RE)
  | eol

/-- Try consuming `i, i-1, …, 0` characters (greedy `*` over a class whose
maximal run has length `i`). -/
def tryStar (k : List Char → Caps → Option Caps) (cs : List Char) (caps : Caps) :
    Nat → Option Caps
  | 0 => k cs caps
  | i + 1 =>
    match k (cs.drop (i + 1)) caps with
    | some r => some r
    | none => tryStar k cs caps i

/-- Try consuming `i, i-1, …, 1` characters (greedy `+` over a class whose
maximal run has length `i`). -/
def tryPlus (k : List Char → Caps → Option Caps) (cs : List Char) (caps : Caps) :
    Nat → Option Caps
  | 0 => none
  | i + 1 =>
    match k (cs.drop (i + 1)) caps with
    | some r => some r
    | none => tryPlus k cs caps i

/-- Backtracking matcher in continuation style; returns the captures of the
first (leftmost-greedy) anchored match. -/
def matchRE : RE → List Char → Caps → (List Char → Caps → Option Caps) → Option Caps
  | .cls p, cs, caps, k =>
    match cs with
    | c :: rest => if p c then k rest caps else none
    | [] => none
  | .seq a b, cs, caps, k =>
    matchRE a cs caps (fun rest caps₁ => matchRE b rest caps₁ k)
  | .opt a, cs, caps, k =>
    match matchRE a cs caps k with
    | some r => some r
    | none => k cs caps
  | .plus p, cs, caps, k => tryPlus k cs caps (cs.takeWhile p).length
  | .star p, cs, caps, k => tryStar k cs caps (cs.takeWhile p).length
  | .grp i a, cs, caps, k =>
    matchRE a cs caps (fun rest caps₁ =>
      k rest (setCap caps₁ i (cs.take (cs.length - rest.length))))
  | .eol, cs, caps, k =>
    if cs = [] || cs = ['\n'] then k cs caps else none

/-- `re.match(pattern, s)`: anchored at the start, trailing input allowed. -/
def reMatch (r : RE) (cs : List Char) : Option Caps :=
  matchRE r cs ⟨[], [], []⟩ (fun _ caps => some caps)

/-- Python `.` outside DOTALL. -/
def notNL (c : Char) : Bool := c ≠ '\n'

/-- `\w+(?:\s+\w+)?` — the unit-word phrase shared by the first three
ingredient patterns. -/
def wordPhrase : RE :=
  .seq (.plus isWordC) (.opt (.seq (.plus isPySpace) (.plus isWordC)))

/-- Pattern `^(\d+(?:\.\d+)?(?:/\d+)?)\s+(\w+(?:\s+\w+)?)\s+(.+)$`. -/
def ingPat1 : RE :=
  .seq (.grp 1 (.seq (.plus isDigitC)
      (.seq (.opt (.seq (.cls (· = '.')) (.plus isDigitC)))
            (.opt (.seq (.cls (· = '/')) (.plus isDigitC))))))
    (.seq (.plus isPySpace)
      (.seq (.grp 2 wordPhrase)
        (.seq (.plus isPySpace) (.seq (.grp 3 (.plus notNL)) .eol))))

/-- Pattern `^(\d+/\d+)\s+(\w+(?:\s+\w+)?)\s+(.+)$`. -/
def ingPat2 : RE :=
  .seq (.grp 1 (.seq (.plus isDigitC) (.seq (.cls (· = '/')) (.plus isDigitC))))
    (.seq (.plus isPySpace)
      (.seq (.grp 2 wordPhrase)
        (.seq (.plus isPySpace) (.seq (.grp 3 (.plus notNL)) .eol))))

/-- Pattern `^(\d+-\d+)\s+(\w+(?:\s+\w+)?)\s+(.+)$`. -/
def ingPat3 : RE :=
  .seq (.grp 1 (.seq (.plus isDigitC) (.seq (.cls (· = '-')) (.plus isDigitC))))
    (.seq (.plus isPySpace)
      (.seq (.grp 2 wordPhrase)
        (.seq (.plus isPySpace) (.seq (.grp 3 (.plus notNL)) .eol))))

/-- Pattern `^(\d+)\s*\(([^)]+)\)\s+(.+)$`. -/
def ingPat4 : RE :=
  .seq (.grp 1 (.plus isDigitC))
    (.seq (.star isPySpace)
      (.seq (.cls (· = '('))
        (.seq (.grp 2 (.plus (· ≠ ')')))
          (.seq (.cls (· = ')'))
            (.seq (.plus isPySpace) (.seq (.grp 3 (.plus notNL)) .eol))))))

/-! ## The ingredient tokenizer (`_parse_ingredient_string`) -/

/-- `s.split(' ', 1)`-style single split at the first space. -/
def splitOnceSp (l : List Char) : Option (List Char × List Char) :=
  (idxOfC ' ' l).map (fun i => (l.take i, l.drop (i + 1)))

/-- `s.split(' ', 2)`: at most three parts, empty parts preserved. -/
def pySplit2 (l : List Char) : List (List Char) :=
  match splitOnceSp l with
  | none => [l]
  | some (p0, r) =>
    match splitOnceSp r with
    | none => [p0, r]
    | some (p1, r2) => [p0, p1, r2]

/-- `_parse_ingredient_string`: try the four patterns in order (first match
wins; every pattern has three groups, so the matched case always returns
`{amount: (g1 + " " + g2).strip(), item: g3.strip()}`); otherwise, if the
stripped line starts with a digit, split on the first two spaces; otherwise
the whole line is the item. The returned dict is `{'amount': …, 'item': …}`
in that insertion order. -/
def parse_ingredient_string (s : String) : List (String × JVal) :=
  let t := pyStrip s.data
  let m :=
    match reMatch ingPat1 t with
    | some c => some c
    | none =>
      match reMatch ingPat2 t with
      | some c => some c
      | none =>
        match reMatch ingPat3 t with
        | some c => some c
        | none => reMatch ingPat4 t
  match m with
  | some caps =>
    [("amount", .str (String.mk (pyStrip (caps.g1 ++ ' ' :: caps.g2)))),
     ("item", .str (String.mk (pyStrip caps.g3)))]
  | none =>
    match t with
    | c :: _ =>
      if isDigitC c then
        match pySplit2 t with
        | [p0, p1] =>
          [("amount", .str (String.mk (pyStrip (p0 ++ ' ' :: p1)))),
           ("item", .str (String.mk p1))]
        | [p0, p1, p2] =>
          [("amount", .str (String.mk (pyStrip (p0 ++ ' ' :: p1)))),
           ("item", .str (String.mk p2))]
        | _ => [("amount", .str ""), ("item", .str (String.mk t))]
      else [("amount", .str ""), ("item", .str (String.mk t))]
    | [] => [("amount", .str ""), ("item", .str (String.mk t))]

/-! ## The JSON sanitizer (`_clean_json`)

Each pass is one `re.sub` over the whole candidate: left-to-right scan,
non-overlapping matches, scanning resumes after each replacement (so a
replacement is not itself rescanned). All three patterns are deterministic
(no real backtracking), so each pass is a direct scanner, fuel-indexed for
structural recursion — one unit of fuel per emitted character suffices, and
the wrappers supply `length`. -/

/-- One `re.sub(r',\s*CLOSE', 'CLOSE', s)` pass. -/
def subCommaGo (close : Char) : Nat → List Char → List Char
  | 0, _ => []
  | _ + 1, [] => []
  | fuel + 1, c :: rest =>
    if c = ',' then
      match rest.dropWhile isPySpace with
      | c2 :: r2 =>
        if c2 = close then close :: subCommaGo close fuel r2
        else ',' :: subCommaGo close fuel rest
      | [] => ',' :: subCommaGo close fuel rest
    else c :: subCommaGo close fuel rest

/-- `re.sub(r',\s*}', '}', s)` / `re.sub(r',\s*]', ']', s)`. -/
def subComma (close : Char) (cs : List Char) : List Char :=
  subCommaGo close cs.length cs

/-- `re.sub(r'//.*?\n', '\n', s)`: `.` does not cross newlines, so a match
runs from `//` to the first following newline; without one there is no
match anywhere in that tail. -/
def subLineGo : Nat → List Char → List Char
  | 0, _ => []
  | _ + 1, [] => []
  | fuel + 1, c :: rest =>
    match c, rest with
    | '/', '/' :: r2 =>
      match idxOfC '\n' r2 with
      | some k => '\n' :: subLineGo fuel (r2.drop (k + 1))
      | none => '/' :: subLineGo fuel ('/' :: r2)
    | _, _ => c :: subLineGo fuel rest

def subLine (cs : List Char) : List Char := subLineGo cs.length cs

/-- `re.sub(r'/\*.*?\*/', '', s, flags=re.DOTALL)`: lazily up to the first
`*/`. -/
def subBlockGo : Nat → List Char → List Char
  | 0, _ => []
  | _ + 1, [] => []
  | fuel + 1, c :: rest =>
    match c, rest with
    | '/', '*' :: r2 =>
      match findSub r2 ['*', '/'] with
      | some k => subBlockGo fuel (r2.drop (k + 2))
      | none => '/' :: subBlockGo fuel ('*' :: r2)
    | _, _ => c :: subBlockGo fuel rest

def subBlock (cs : List Char) : List Char := subBlockGo cs.length cs

/-- `_clean_json`: the four passes in source order. -/
def clean_json (cs : List Char) : List Char :=
  subBlock (subLine (subComma ']' (subComma '}' cs)))

/-! ## JSON span extraction

`re.search(r'\{[\s\S]*\}', text)`: the match, when it exists, starts at the
leftmost `{` (leftmost viable start) and — `[\s\S]*` being greedy — ends at
the rightmost `}` of the whole text. It exists exactly when some `{` is
strictly left of some `}`. -/

def extractSpan (cs : List Char) : Option (List Char) :=
  match idxOfC '{' cs, lastIdxOfC '}' cs with
  | some i, some j => if i < j then some ((cs.drop i).take (j - i + 1)) else none
  | _, _ => none

/-! ## The recipe record (`ParsedRecipe` of `models.py`)

Python's dataclass annotates every scalar as `str`, but nothing enforces
the annotation: `_parse_json_to_recipe` assigns `name`, `description` and
`difficulty` straight from `data.get(...)`, and appends ingredient dicts
verbatim, so those fields hold whatever dynamic value the JSON carried.
The embedding gives them type `JVal`; the fields the source always passes
through `str(...)` are `String`. -/

structure ParsedRecipe where
  name : JVal := .str ""
  description : JVal := .str ""
  prep_time : String := ""
  cook_time : String := ""
  servings : String := ""
  difficulty : JVal := .str ""
  ingredients : List (List (String × JVal)) := []
  instructions : List String := []
  tips : List String := []
  tags : List String := []
  nutrition : List (String × String) := []
  deriving DecidableEq

/-! ## The normalizer (`_parse_json_to_recipe`)

Called (inside the `try`) with whatever `json.loads` produced. On a
non-dict the Python `data.get` raises `AttributeError`, which
`parse_response`'s `except json.JSONDecodeError` does not catch — modelled
as the `.error` branch. -/

inductive PyErr where
  | attributeError
  deriving DecidableEq

/-- Entry of the source's ingredient loop: dicts verbatim, strings through
the tokenizer, anything else skipped. -/
def ingEntry : JVal → Option (List (String × JVal))
  | .obj m => some m
  | .str s => some (parse_ingredient_string s)
  | _ => none

def parse_json_to_recipe : JVal → Except PyErr ParsedRecipe
  | .obj m =>
    .ok
      { name := getD m "name" (getD m "title" (.str "Untitled Recipe"))
        description := getD m "description" (.str "")
        prep_time := pyStr (getD m "prep_time" (getD m "prepTime" (.str "")))
        cook_time := pyStr (getD m "cook_time" (getD m "cookTime" (.str "")))
        servings := pyStr (getD m "servings" (.str ""))
        difficulty := getD m "difficulty" (.str "")
        ingredients :=
          match getD m "ingredients" (.arr []) with
          | .arr l => l.filterMap ingEntry
          | _ => []
        instructions :=
          match getD m "instructions" (getD m "steps" (.arr [])) with
          | .arr l => l.map pyStr
          | _ => []
        tips :=
          match getD m "tips" (getD m "notes" (.arr [])) with
          | .arr l => l.map pyStr
          | _ => []
        tags :=
          match getD m "tags" (getD m "categories" (.arr [])) with
          | .arr l => l.map pyStr
          | _ => []
        nutrition :=
          match getD m "nutrition" (.obj []) with
          | .obj nm => nm.map (fun p => (p.1, pyStr p.2))
          | _ => [] }
  | _ => .error .attributeError

/-! ## The plain-text fallback (`_parse_plain_text`) -/

inductive Sect where
  | ingredients
  | instructions
  | tips
  deriving DecidableEq

/-- `re.sub(r'^[-•*]\s*', '', line)` (anchored, so at most one hit). -/
def stripBullet (l : List Char) : List Char :=
  match l with
  | c :: rest =>
    if c = '-' || c = '•' || c = '*' then rest.dropWhile isPySpace else l
  | [] => []

/-- `re.sub(r'^\d+\.\s*', '', line)`. -/
def stripNumDot (l : List Char) : List Char :=
  let ds := l.takeWhile isDigitC
  if ds = [] then l
  else
    match l.drop ds.length with
    | '.' :: r => r.dropWhile isPySpace
    | _ => l

/-- `re.sub(r'^Step\s+\d+:?\s*', '', line, flags=re.IGNORECASE)`. -/
def stripStepTag (l : List Char) : List Char :=
  match l with
  | s :: t :: e :: p :: rest =>
    if lowerC s = 's' && lowerC t = 't' && lowerC e = 'e' && lowerC p = 'p' then
      let ws := rest.takeWhile isPySpace
      if ws = [] then l
      else
        let r2 := rest.drop ws.length
        let ds := r2.takeWhile isDigitC
        if ds = [] then l
        else
          let r3 := r2.drop ds.length
          let r4 := match r3 with
            | ':' :: rr => rr
            | _ => r3
          r4.dropWhile isPySpace
    else l
  | _ => l

/-- The fixed tag vocabulary of `_parse_plain_text`, in source order. -/
def tagKeywords : List String :=
  ["healthy", "quick", "easy", "vegetarian", "vegan", "gluten-free",
   "dairy-free", "low-carb", "keto", "paleo", "budget-friendly",
   "family-friendly", "meal-prep", "one-pot", "30-minute", "15-minute"]

/-- The line loop of `_parse_plain_text`: blank lines skipped, header lines
switch the active section and are dropped, data lines are cleaned and
appended to the active section (none: dropped). -/
def plainLoop : List (List Char) → Option Sect → ParsedRecipe → ParsedRecipe
  | [], _, r => r
  | l :: ls, sec, r =>
    let line := pyStrip l
    if line = [] then plainLoop ls sec r
    else
      let low := line.map lowerC
      if containsSub low "ingredient".data then plainLoop ls (some .ingredients) r
      else if containsSub low "instruction".data || containsSub low "direction".data ||
          containsSub low "step".data then plainLoop ls (some .instructions) r
      else if containsSub low "tip".data || containsSub low "note".data then
        plainLoop ls (some .tips) r
      else
        match sec with
        | some .ingredients =>
          let cleaned := stripNumDot (stripBullet line)
          if cleaned = [] then plainLoop ls sec r
          else
            plainLoop ls sec
              { r with ingredients :=
                  r.ingredients ++ [parse_ingredient_string (String.mk cleaned)] }
        | some .instructions =>
          let cleaned := stripStepTag (stripNumDot (stripBullet line))
          if cleaned = [] then plainLoop ls sec r
          else plainLoop ls sec { r with instructions := r.instructions ++ [String.mk cleaned] }
        | some .tips =>
          let cleaned := stripBullet line
          if cleaned = [] then plainLoop ls sec r
          else plainLoop ls sec { r with tips := r.tips ++ [String.mk cleaned] }
        | none => plainLoop ls sec r

def parse_plain_text (s : String) : ParsedRecipe :=
  let r1 := plainLoop (splitNL s.data) none { name := .str "Recipe" }
  let textLower := s.data.map lowerC
  let extra := (tagKeywords.filter (fun kw => containsSub textLower kw.data)).map
      (fun kw => String.mk (replaceC '-' ' ' (pyTitle kw.data)))
  { r1 with tags := r1.tags ++ extra }

/-! ## The orchestrator (`parse_response`)

The `try` block covers sanitize + decode + normalize, but the `except`
clause catches only `json.JSONDecodeError`; a decode failure therefore
falls through to the plain-text path on the FULL original text, while an
`AttributeError` out of `_parse_json_to_recipe` (non-dict data) would
escape — hence the `Except PyErr` result type. -/

def parse_response (s : String) : Except PyErr ParsedRecipe :=
  match extractSpan s.data with
  | some span =>
    match jsonLoads (String.mk (clean_json span)) with
    | .ok data => parse_json_to_recipe data
    | .error _ => .ok (parse_plain_text s)
  | none => .ok (parse_plain_text s)

/-! ## A canonical-schema JSON serializer

Modelled from the spec: the repository never serializes a `ParsedRecipe`
back to JSON, but the spec's idempotence / round-trip property quantifies
over records "round-tripped through JSON" (§8). This is a compact
`json.dumps`-style printer over the canonical schema — every field, in
dataclass order, separators `", "` and `": "`, strings quoted with `"` and
`\` escaped and control characters as `\u00XX`, other characters emitted
verbatim (the `ensure_ascii=False` convention). -/

/-- Lowercase hex digit. -/
def hexDigit (n : Nat) : Char :=
  if n < 10 then Char.ofNat (48 + n) else Char.ofNat (87 + n)

/-- Body of a JSON string literal. -/
def encStrBody : List Char → List Char
  | [] => []
  | c :: rest =>
    (if c = '"' then ['\\', '"']
     else if c = '\\' then ['\\', '\\']
     else if c.toNat < 0x20 then
       ['\\', 'u', '0', '0', hexDigit (c.toNat / 16), hexDigit (c.toNat % 16)]
     else [c]) ++ encStrBody rest

mutual

/-- Compact JSON text of a value. -/
def encJVal : JVal → List Char
  | .null => "null".data
  | .bool true => "true".data
  | .bool false => "false".data
  | .int n => (intStr n).data
  | .float lex => lex.data
  | .str s => '"' :: encStrBody s.data ++ ['"']
  | .arr l => '[' :: encElems l ++ [']']
  | .obj m => '{' :: encMembers m ++ ['}']

def encElems : List JVal → List Char
  | [] => []
  | [v] => encJVal v
  | v :: rest => encJVal v ++ ',' :: ' ' :: encElems rest

def encMembers : List (String × JVal) → List Char
  | [] => []
  | [(k, v)] => '"' :: encStrBody k.data ++ '"' :: ':' :: ' ' :: encJVal v
  | (k, v) :: rest =>
    '"' :: encStrBody k.data ++ '"' :: ':' :: ' ' :: encJVal v ++ ',' :: ' ' :: encMembers rest

end

/-- The canonical JSON image of a record: every field, dataclass order. -/
def recipeToJVal (r : ParsedRecipe) : JVal :=
  .obj
    [("name", r.name), ("description", r.description),
     ("prep_time", .str r.prep_time), ("cook_time", .str r.cook_time),
     ("servings", .str r.servings), ("difficulty", r.difficulty),
     ("ingredients", .arr (r.ingredients.map JVal.obj)),
     ("instructions", .arr (r.instructions.map JVal.str)),
     ("tips", .arr (r.tips.map JVal.str)),
     ("tags", .arr (r.tags.map JVal.str)),
     ("nutrition", .obj (r.nutrition.map (fun p => (p.1, JVal.str p.2))))]

/-- Serialize a record to canonical JSON text. -/
def dumpsRecipe (r : ParsedRecipe) : String :=
  String.mk (encJVal (recipeToJVal r))

/-- Is this value a Python `str`? -/
def isStrV : JVal → Bool
  | .str _ => true
  | _ => false

/-- An already-canonical record in the spec's sense (§3): every leaf is
text, and — as for any value out of `json.loads`, whose dicts cannot repeat
keys — the keys inside each ingredient entry and the nutrition mapping are
distinct. -/
def isCanonical (r : ParsedRecipe) : Bool :=
  isStrV r.name && isStrV r.description && isStrV r.difficulty &&
  r.ingredients.all (fun m =>
    decide ((m.map Prod.fst).Nodup) && m.all (fun p => isStrV p.2)) &&
  decide ((r.nutrition.map Prod.fst).Nodup)

/-! # Claims

Each claim of the specification is settled by one theorem below (plus a
closed counterexample where the claim as stated fails on the code). -/

/-- C4 (counterexample). The claim says the tokenizer returns amount
`"1 (15 oz)"` on the line `"1 (15 oz) can tomatoes"`. The code builds the
amount as `group(1) + " " + group(2)`, and for the parenthesized-size
pattern group 2 is `([^)]+)` — the inside of the parentheses — so the
parentheses are dropped: the actual amount is `"1 15 oz"`. -/
theorem C4_tokenizer_paren_counterexample :
    parse_ingredient_string "1 (15 oz) can tomatoes" ≠
      [("amount", .str "1 (15 oz)"), ("item", .str "can tomatoes")] ∧
    parse_ingredient_string "1 (15 oz) can tomatoes" =
      [("amount", .str "1 15 oz"), ("item", .str "can tomatoes")] := by
  decide

/-- C4 (amended). The tokenizer applied to `"1 (15 oz) can tomatoes"`
returns amount `"1 15 oz"` and item `"can tomatoes"`: under the
integer-plus-parenthesized-size rule the amount is the integer followed by
a single space and the parenthesized size with its parentheses stripped
(the rule also fires with no space before the `(`, as the second instance
shows). -/
theorem C4_tokenizer_paren_amended :
    parse_ingredient_string "1 (15 oz) can tomatoes" =
      [("amount", .str "1 15 oz"), ("item", .str "can tomatoes")] ∧
    parse_ingredient_string "2(12 oz) jar sauce" =
      [("amount", .str "2 12 oz"), ("item", .str "jar sauce")] := by
  decide

/-- C7. The JSON-free input
`"Ingredients:\n2 cups flour\n1 tsp salt\nInstructions:\nMix well"`
contains no brace-delimited span, so `parse_response` takes the plain-text
path, and returns ingredients
`[{amount: "2 cups", item: "flour"}, {amount: "1 tsp", item: "salt"}]` and
instructions `["Mix well"]`. -/
theorem C7_fallback_triggering :
    extractSpan ("Ingredients:\n2 cups flour\n1 tsp salt\nInstructions:\nMix well").data
      = none ∧
    parse_response "Ingredients:\n2 cups flour\n1 tsp salt\nInstructions:\nMix well" =
      .ok { name := .str "Recipe",
            ingredients := [[("amount", .str "2 cups"), ("item", .str "flour")],
                            [("amount", .str "1 tsp"), ("item", .str "salt")]],
            instructions := ["Mix well"] } := by
  decide

/-- C9 (counterexample). The claim says every data line of every section —
tips included — is stripped of a leading numeric list prefix `N.`. The tips
branch of `_parse_plain_text` applies only the bullet-marker substitution,
so a tips line `"1. Chill the dough"` is appended with its `1.` intact. -/
theorem C9_tips_numeric_counterexample :
    parse_response "Tips:\n1. Chill the dough" =
      .ok { name := .str "Recipe", tips := ["1. Chill the dough"] } ∧
    ("1. Chill the dough" : String) ≠ "Chill the dough" := by
  decide

/-- A line that contains none of the section keywords (after stripping and
lowercasing), so it can never act as a section header. -/
def noHeaderLine (l : List Char) : Bool :=
  let low := (pyStrip l).map lowerC
  !(containsSub low "ingredient".data || containsSub low "instruction".data ||
    containsSub low "direction".data || containsSub low "step".data ||
    containsSub low "tip".data || containsSub low "note".data)

/-- C9 (amended). In the plain-text fallback, ingredients and instructions
data lines are stripped of a leading bullet marker or numeric `N.` prefix,
but tips lines are stripped only of a leading bullet marker — a numeric
prefix on a tips line is kept. The instructions branch also carries a
"Step N:"-stripping substitution, but a line containing "step" is consumed
as a section header before it can reach that branch. Lines seen while no
section is active are dropped. -/
theorem C9_section_line_cleaning :
    (parse_response "Tips:\n- be careful\n2. rest the meat" =
      .ok { name := .str "Recipe", tips := ["be careful", "2. rest the meat"] }) ∧
    (parse_response "Instructions:\n1. Bake\n- Mix well\nStep 3: Serve" =
      .ok { name := .str "Recipe", instructions := ["Bake", "Mix well"] }) ∧
    (parse_response "Ingredients:\n- 2 cups flour" =
      .ok { name := .str "Recipe",
            ingredients := [[("amount", .str "2 cups"), ("item", .str "flour")]] }) ∧
    (∀ (ls : List (List Char)) (r : ParsedRecipe),
      (∀ l ∈ ls, noHeaderLine l = true) → plainLoop ls none r = r) := by
  refine ⟨by decide, by decide, by decide, ?_⟩
  intro ls r h
  induction ls with
  | nil => rfl
  | cons l ls ih =>
    have hl := h l (by simp)
    have hls : ∀ l' ∈ ls, noHeaderLine l' = true := fun l' hm => h l' (by simp [hm])
    simp only [noHeaderLine, Bool.not_eq_true', Bool.or_eq_false_iff] at hl
    obtain ⟨⟨⟨⟨⟨h1, h2⟩, h3⟩, h4⟩, h5⟩, h6⟩ := hl
    simp only [plainLoop, h1, h2, h3, h4, h5, h6, Bool.or_self, Bool.false_or,
      if_false]
    split <;> exact ih hls

/-- C9 (witness): the general pre-header conjunct applied to a concrete
line list and record. -/
theorem C9_section_line_cleaning_witness :
    plainLoop ["before header line".data, "2 cups flour".data] none
      { name := .str "Recipe" } = { name := .str "Recipe" } :=
  C9_section_line_cleaning.2.2.2 _ _ (by decide)

/-- Whitespace run followed by a non-whitespace closer: `dropWhile` lands on
the closer. -/
theorem dropWhile_ws_append (w : List Char) (x : Char)
    (h : ∀ c ∈ w, isPySpace c = true) (hx : isPySpace x = false) :
    (w ++ [x]).dropWhile isPySpace = [x] := by
  induction w with
  | nil => simp [List.dropWhile, hx]
  | cons c w ih =>
    have hc := h c (by simp)
    simp only [List.cons_append, List.dropWhile, hc]
    exact ih (fun c' hm => h c' (by simp [hm]))

/-- The trailing-comma pass copies a comma-free tail verbatim. -/
theorem subCommaGo_no_comma (close : Char) (l : List Char) :
    ∀ fuel, l.length ≤ fuel → (∀ c ∈ l, c ≠ ',') →
      subCommaGo close fuel l = l := by
  induction l with
  | nil => intro fuel _ _; cases fuel <;> rfl
  | cons c l ih =>
    intro fuel hf h
    match fuel, hf with
    | f + 1, hf =>
      have hc : c ≠ ',' := h c (by simp)
      simp only [subCommaGo, if_neg hc]
      rw [ih f (by simpa using hf) (fun c' hm => h c' (by simp [hm]))]

/-- C8. The input `{"name":"X","tags":["a","b",]}` decodes on the JSON path
after sanitization, with tags `["a","b"]`; and in general the sanitizer
rewrites a comma followed by whitespace (newlines included) and a closing
`}` or `]` to just the closer. -/
theorem C8_trailing_comma :
    (parse_response "\x7b\"name\":\"X\",\"tags\":[\"a\",\"b\",]\x7d" =
      .ok { name := .str "X", tags := ["a", "b"] }) ∧
    (∀ w : List Char, (∀ c ∈ w, isPySpace c = true) →
      clean_json (',' :: w ++ ['}']) = ['}'] ∧
      clean_json (',' :: w ++ [']']) = [']']) := by
  refine ⟨by decide, ?_⟩
  intro w hw
  have hwc : ∀ c ∈ w, c ≠ ',' := by
    intro c hm he
    have := hw c hm
    rw [he] at this
    exact absurd this (by decide)
  constructor
  · show subBlock (subLine (subComma ']' (subComma '}' (',' :: w ++ ['}'])))) = ['}']
    have h1 : subComma '}' (',' :: w ++ ['}']) = ['}'] := by
      simp only [subComma, subCommaGo, List.length_cons, List.length_append,
        List.append_eq, ite_true]
      rw [dropWhile_ws_append w '}' hw (by decide)]
      simp only [if_pos rfl, reduceIte]
      rfl
    rw [h1]
    decide
  · show subBlock (subLine (subComma ']' (subComma '}' (',' :: w ++ [']'])))) = [']']
    have h1 : subComma '}' (',' :: w ++ [']']) = ',' :: w ++ [']'] := by
      simp only [subComma, subCommaGo, List.length_cons, List.length_append,
        List.append_eq, ite_true]
      rw [dropWhile_ws_append w ']' hw (by decide)]
      rw [subCommaGo_no_comma '}' (w ++ [']']) _ (by simp)
        (by intro c hm
            rcases List.mem_append.mp hm with h | h
            · exact hwc c h
            · simp at h; simp [h])]
      simp
    rw [h1]
    have h2 : subComma ']' (',' :: w ++ [']']) = [']'] := by
      simp only [subComma, subCommaGo, List.length_cons, List.length_append,
        List.append_eq, ite_true]
      rw [dropWhile_ws_append w ']' hw (by decide)]
      simp only [if_pos rfl, reduceIte]
      rfl
    rw [h2]
    decide

/-- C8 (witness): the sanitizer conjunct at a concrete whitespace run. -/
theorem C8_trailing_comma_witness :
    clean_json (',' :: [' ', '\n', '\t'] ++ ['}']) = ['}'] ∧
    clean_json (',' :: [' ', '\n', '\t'] ++ [']']) = [']'] :=
  C8_trailing_comma.2 [' ', '\n', '\t'] (by decide)

/-- C10. On the JSON path, an ingredients entry that is neither a dict nor
a string is silently skipped: deleting such an entry from the list leaves
the parsed record unchanged, normalization still succeeds (no raise, no
defaulted placeholder), and the surviving entries are the order-preserving
`filterMap` of the list (dicts kept verbatim, strings tokenized). The last
conjunct records which decoded-JSON shapes are skipped: numbers, booleans,
null, and nested lists. -/
theorem C10_ingredient_entry_skip :
    (∀ (restm : List (String × JVal)) (pre post : List JVal) (x : JVal),
      ingEntry x = none →
      parse_json_to_recipe (.obj (("ingredients", .arr (pre ++ x :: post)) :: restm)) =
        parse_json_to_recipe (.obj (("ingredients", .arr (pre ++ post)) :: restm))) ∧
    (∀ (restm : List (String × JVal)) (l : List JVal),
      ∃ r, parse_json_to_recipe (.obj (("ingredients", .arr l) :: restm)) = .ok r ∧
        r.ingredients = l.filterMap ingEntry) ∧
    (∀ (n : Int) (b : Bool) (f : String) (l : List JVal),
      ingEntry (.int n) = none ∧ ingEntry (.bool b) = none ∧
      ingEntry .null = none ∧ ingEntry (.float f) = none ∧
      ingEntry (.arr l) = none) := by
  refine ⟨?_, ?_, ?_⟩
  · intro restm pre post x hx
    simp [parse_json_to_recipe, getD, getKV, List.lookup, List.filterMap_append,
      List.filterMap_cons, hx]
  · intro restm l
    refine ⟨_, rfl, ?_⟩
    simp [getD, getKV, List.lookup]
  · intro n b f l
    refine ⟨rfl, ?_, rfl, rfl, rfl⟩
    cases b <;> rfl

/-- C10 (witness): dropping a junk entry (`7`) between two good entries
changes nothing, at concrete inputs. -/
theorem C10_ingredient_entry_skip_witness :
    parse_json_to_recipe
      (.obj [("ingredients", .arr ([.str "2 cups flour"] ++ .int 7 :: [.obj [("item", .str "egg")]]))]) =
    parse_json_to_recipe
      (.obj [("ingredients", .arr ([.str "2 cups flour"] ++ [.obj [("item", .str "egg")]]))]) :=
  C10_ingredient_entry_skip.1 [] [.str "2 cups flour"] [.obj [("item", .str "egg")]]
    (.int 7) rfl

/-- C6. Parsing `{"title": "X", "steps": ["a","b"]}` gives the same record
as parsing `{"name": "X", "instructions": ["a","b"]}`; and for each
canonical field with a synonym source key the first present key wins: when
the primary key is present its value alone determines the field (whatever
else the object holds), and when it is absent the synonym's value
determines the field exactly as the primary key would. -/
theorem C6_synonym_equivalence :
    (parse_response "\x7b\"title\": \"X\", \"steps\": [\"a\",\"b\"]\x7d" =
       parse_response "\x7b\"name\": \"X\", \"instructions\": [\"a\",\"b\"]\x7d") ∧
    (∀ (m : List (String × JVal)) (v : JVal),
      (getKV m "name" = some v →
        (parse_json_to_recipe (.obj m)).map ParsedRecipe.name =
          (parse_json_to_recipe (.obj [("name", v)])).map ParsedRecipe.name) ∧
      (getKV m "name" = none → getKV m "title" = some v →
        (parse_json_to_recipe (.obj m)).map ParsedRecipe.name =
          (parse_json_to_recipe (.obj [("name", v)])).map ParsedRecipe.name)) ∧
    (∀ (m : List (String × JVal)) (v : JVal),
      (getKV m "prep_time" = some v →
        (parse_json_to_recipe (.obj m)).map ParsedRecipe.prep_time =
          (parse_json_to_recipe (.obj [("prep_time", v)])).map ParsedRecipe.prep_time) ∧
      (getKV m "prep_time" = none → getKV m "prepTime" = some v →
        (parse_json_to_recipe (.obj m)).map ParsedRecipe.prep_time =
          (parse_json_to_recipe (.obj [("prep_time", v)])).map ParsedRecipe.prep_time)) ∧
    (∀ (m : List (String × JVal)) (v : JVal),
      (getKV m "cook_time" = some v →
        (parse_json_to_recipe (.obj m)).map ParsedRecipe.cook_time =
          (parse_json_to_recipe (.obj [("cook_time", v)])).map ParsedRecipe.cook_time) ∧
      (getKV m "cook_time" = none → getKV m "cookTime" = some v →
        (parse_json_to_recipe (.obj m)).map ParsedRecipe.cook_time =
          (parse_json_to_recipe (.obj [("cook_time", v)])).map ParsedRecipe.cook_time)) ∧
    (∀ (m : List (String × JVal)) (v : JVal),
      (getKV m "instructions" = some v →
        (parse_json_to_recipe (.obj m)).map ParsedRecipe.instructions =
          (parse_json_to_recipe (.obj [("instructions", v)])).map ParsedRecipe.instructions) ∧
      (getKV m "instructions" = none → getKV m "steps" = some v →
        (parse_json_to_recipe (.obj m)).map ParsedRecipe.instructions =
          (parse_json_to_recipe (.obj [("instructions", v)])).map ParsedRecipe.instructions)) ∧
    (∀ (m : List (String × JVal)) (v : JVal),
      (getKV m "tips" = some v →
        (parse_json_to_recipe (.obj m)).map ParsedRecipe.tips =
          (parse_json_to_recipe (.obj [("tips", v)])).map ParsedRecipe.tips) ∧
      (getKV m "tips" = none → getKV m "notes" = some v →
        (parse_json_to_recipe (.obj m)).map ParsedRecipe.tips =
          (parse_json_to_recipe (.obj [("tips", v)])).map ParsedRecipe.tips)) ∧
    (∀ (m : List (String × JVal)) (v : JVal),
      (getKV m "tags" = some v →
        (parse_json_to_recipe (.obj m)).map ParsedRecipe.tags =
          (parse_json_to_recipe (.obj [("tags", v)])).map ParsedRecipe.tags) ∧
      (getKV m "tags" = none → getKV m "categories" = some v →
        (parse_json_to_recipe (.obj m)).map ParsedRecipe.tags =
          (parse_json_to_recipe (.obj [("tags", v)])).map ParsedRecipe.tags)) := by
  refine ⟨by decide, ?_, ?_, ?_, ?_, ?_, ?_⟩ <;>
  · intro m v
    refine ⟨fun h => ?_, fun h h' => ?_⟩
    · simp only [getKV] at h
      simp [parse_json_to_recipe, Except.map, getD, getKV, List.lookup, h]
    · simp only [getKV] at h h'
      simp [parse_json_to_recipe, Except.map, getD, getKV, List.lookup, h, h']

/-- C6 (witness): the name/title pair at a concrete object holding only a
`title`. -/
theorem C6_synonym_equivalence_witness :
    (parse_json_to_recipe (.obj [("title", JVal.str "X")])).map ParsedRecipe.name =
      (parse_json_to_recipe (.obj [("name", JVal.str "X")])).map ParsedRecipe.name :=
  (C6_synonym_equivalence.2.1 [("title", JVal.str "X")] (.str "X")).2 rfl rfl

/-- C2 (counterexample). The claim says every leaf of the normalized record
is text, with null becoming the empty string. But `recipe.name` is assigned
`data.get('name', ...)` with no `str()` around it, so `{"name": 5}` leaves
an integer in the record; and a present `"prep_time": null` is coerced with
`str(None)`, producing `"None"`, not `""`. -/
theorem C2_leaf_text_counterexample :
    parse_response "\x7b\"name\": 5, \"prep_time\": null\x7d" =
      .ok { name := .int 5, prep_time := "None" } ∧
    isStrV (.int 5) = false ∧ ("None" : String) ≠ "" := by
  decide

/-- C2 (amended). `prep_time`, `cook_time` and `servings` are coerced to
text with `str()` — a present JSON null becoming `"None"`, not the empty
string; `name`, `description` and `difficulty` are stored verbatim with no
coercion; a dict ingredients entry is kept with its values uncoerced; and
the elements of instructions/tips/tags and the values of nutrition are
coerced to text. -/
theorem C2_leaf_coercion_amended :
    (∀ (m : List (String × JVal)) (v : JVal),
      (getKV m "prep_time" = some v →
        (parse_json_to_recipe (.obj m)).map ParsedRecipe.prep_time = .ok (pyStr v)) ∧
      (getKV m "cook_time" = some v →
        (parse_json_to_recipe (.obj m)).map ParsedRecipe.cook_time = .ok (pyStr v)) ∧
      (getKV m "servings" = some v →
        (parse_json_to_recipe (.obj m)).map ParsedRecipe.servings = .ok (pyStr v)) ∧
      (getKV m "name" = some v →
        (parse_json_to_recipe (.obj m)).map ParsedRecipe.name = .ok v) ∧
      (getKV m "description" = some v →
        (parse_json_to_recipe (.obj m)).map ParsedRecipe.description = .ok v) ∧
      (getKV m "difficulty" = some v →
        (parse_json_to_recipe (.obj m)).map ParsedRecipe.difficulty = .ok v)) ∧
    (pyStr .null = "None") ∧
    (∀ (m : List (String × JVal)) (ing : List (String × JVal)),
      getKV m "ingredients" = some (.arr [.obj ing]) →
        (parse_json_to_recipe (.obj m)).map ParsedRecipe.ingredients = .ok [ing]) ∧
    (∀ (m : List (String × JVal)) (l : List JVal),
      (getKV m "instructions" = some (.arr l) →
        (parse_json_to_recipe (.obj m)).map ParsedRecipe.instructions = .ok (l.map pyStr)) ∧
      (getKV m "tips" = some (.arr l) →
        (parse_json_to_recipe (.obj m)).map ParsedRecipe.tips = .ok (l.map pyStr)) ∧
      (getKV m "tags" = some (.arr l) →
        (parse_json_to_recipe (.obj m)).map ParsedRecipe.tags = .ok (l.map pyStr))) ∧
    (∀ (m : List (String × JVal)) (nm : List (String × JVal)),
      getKV m "nutrition" = some (.obj nm) →
        (parse_json_to_recipe (.obj m)).map ParsedRecipe.nutrition =
          .ok (nm.map (fun p => (p.1, pyStr p.2)))) := by
  refine ⟨?_, rfl, ?_, ?_, ?_⟩
  · intro m v
    refine ⟨fun h => ?_, fun h => ?_, fun h => ?_, fun h => ?_, fun h => ?_, fun h => ?_⟩ <;>
    · simp only [getKV] at h
      simp [parse_json_to_recipe, Except.map, getD, getKV, h]
  · intro m ing h
    simp only [getKV] at h
    simp [parse_json_to_recipe, Except.map, getD, getKV, h, ingEntry]
  · intro m l
    refine ⟨fun h => ?_, fun h => ?_, fun h => ?_⟩ <;>
    · simp only [getKV] at h
      simp [parse_json_to_recipe, Except.map, getD, getKV, h]
  · intro m nm h
    simp only [getKV] at h
    simp [parse_json_to_recipe, Except.map, getD, getKV, h]

/-- C2 (witness): the amended coercion rules at a concrete object. -/
theorem C2_leaf_coercion_amended_witness :
    (parse_json_to_recipe (.obj [("prep_time", JVal.null)])).map ParsedRecipe.prep_time =
      .ok (pyStr .null) ∧
    (parse_json_to_recipe (.obj [("instructions", JVal.arr [.int 3])])).map
      ParsedRecipe.instructions = .ok ([JVal.int 3].map pyStr) :=
  ⟨(C2_leaf_coercion_amended.1 [("prep_time", JVal.null)] .null).1 rfl,
   (C2_leaf_coercion_amended.2.2.2.1 [("instructions", JVal.arr [.int 3])] [.int 3]).1 rfl⟩

theorem idxOfC_iff (c : Char) : ∀ (l : List Char) (i : Nat),
    idxOfC c l = some i ↔ l[i]? = some c ∧ ∀ k < i, l[k]? ≠ some c := by
  intro l
  induction l with
  | nil => intro i; simp [idxOfC]
  | cons x rest ih =>
    intro i
    by_cases hx : x = c
    · subst hx
      simp only [idxOfC, if_pos rfl]
      constructor
      · intro h
        injection h with h
        subst h
        simp
      · rintro ⟨h1, h2⟩
        cases i with
        | zero => rfl
        | succ i =>
          exfalso
          exact h2 0 (Nat.succ_pos _) (by simp)
    · simp only [idxOfC, if_neg hx]
      cases i with
      | zero =>
        simp only [Option.map_eq_some']
        constructor
        · rintro ⟨j, _, hj⟩; omega
        · rintro ⟨h1, _⟩
          simp only [List.getElem?_cons_zero, Option.some.injEq] at h1
          exact absurd h1 hx
      | succ i =>
        simp only [Option.map_eq_some']
        constructor
        · rintro ⟨j, hj, hji⟩
          have hjeq : j = i := by omega
          rw [hjeq] at hj
          obtain ⟨h1, h2⟩ := (ih i).mp hj
          refine ⟨by simpa using h1, ?_⟩
          intro k hk
          cases k with
          | zero => simp [hx]
          | succ k => simpa using h2 k (by omega)
        · rintro ⟨h1, h2⟩
          refine ⟨i, (ih i).mpr ⟨by simpa using h1, ?_⟩, rfl⟩
          intro k hk
          simpa using h2 (k + 1) (by omega)

theorem lastIdxOfC_iff (c : Char) (l : List Char) (j : Nat) :
    lastIdxOfC c l = some j ↔ l[j]? = some c ∧ ∀ k, j < k → l[k]? ≠ some c := by
  unfold lastIdxOfC
  simp only [Option.map_eq_some']
  constructor
  · rintro ⟨i, hi, hij⟩
    obtain ⟨h1, h2⟩ := (idxOfC_iff c l.reverse i).mp hi
    have hilen : i < l.length := by
      by_contra hge
      rw [List.getElem?_eq_none (by simp; omega)] at h1
      exact Option.noConfusion h1
    subst hij
    constructor
    · rw [List.getElem?_reverse hilen] at h1
      exact h1
    · intro k hk hkc
      have hklen : k < l.length := by
        by_contra hge
        rw [List.getElem?_eq_none (by omega)] at hkc
        exact Option.noConfusion hkc
      have hrev : l.reverse[l.length - 1 - k]? = some c := by
        rw [List.getElem?_reverse (by omega)]
        have : l.length - 1 - (l.length - 1 - k) = k := by omega
        rw [this]
        exact hkc
      exact h2 (l.length - 1 - k) (by omega) hrev
  · rintro ⟨h1, h2⟩
    have hjlen : j < l.length := by
      by_contra hge
      rw [List.getElem?_eq_none (by omega)] at h1
      exact Option.noConfusion h1
    refine ⟨l.length - 1 - j, (idxOfC_iff c l.reverse _).mpr ⟨?_, ?_⟩, by omega⟩
    · rw [List.getElem?_reverse (by omega)]
      have : l.length - 1 - (l.length - 1 - j) = j := by omega
      rw [this]
      exact h1
    · intro k hk
      have hklen : k < l.length := by omega
      rw [List.getElem?_reverse hklen]
      exact h2 (l.length - 1 - k) (by omega)

/-- C3. The JSON candidate is exactly the greedy span from the leftmost `{`
to the rightmost `}` anywhere in the input (the span exists iff some `{`
sits strictly left of some `}`); when no span exists, or when the sanitized
span fails to decode, the parser runs the plain-text fallback on the full
original input — there is no second JSON attempt and no partial salvage. -/
theorem C3_span_selection :
    (∀ (s : String) (t : List Char),
      extractSpan s.data = some t ↔
        ∃ i j, i < j ∧ s.data[i]? = some '{' ∧ s.data[j]? = some '}' ∧
          (∀ k < i, s.data[k]? ≠ some '{') ∧
          (∀ k, j < k → s.data[k]? ≠ some '}') ∧
          t = (s.data.drop i).take (j - i + 1)) ∧
    (∀ s : String, extractSpan s.data = none →
      parse_response s = .ok (parse_plain_text s)) ∧
    (∀ (s : String) (t : List Char) (e : JErr),
      extractSpan s.data = some t →
      jsonLoads (String.mk (clean_json t)) = .error e →
      parse_response s = .ok (parse_plain_text s)) := by
  refine ⟨?_, ?_, ?_⟩
  · intro s t
    constructor
    · intro h
      unfold extractSpan at h
      cases hi : idxOfC '{' s.data with
      | none => rw [hi] at h; exact absurd h (by simp)
      | some i =>
        cases hj : lastIdxOfC '}' s.data with
        | none => rw [hi, hj] at h; exact absurd h (by simp)
        | some j =>
          rw [hi, hj] at h
          by_cases hij : i < j
          · simp only [hij, if_true, Option.some.injEq] at h
            obtain ⟨hg1, hm1⟩ := (idxOfC_iff '{' s.data i).mp hi
            obtain ⟨hg2, hm2⟩ := (lastIdxOfC_iff '}' s.data j).mp hj
            exact ⟨i, j, hij, hg1, hg2, hm1, hm2, h.symm⟩
          · simp only [hij, if_false] at h
            exact absurd h (by simp)
    · rintro ⟨i, j, hij, hg1, hg2, hm1, hm2, ht⟩
      unfold extractSpan
      rw [(idxOfC_iff '{' s.data i).mpr ⟨hg1, hm1⟩,
          (lastIdxOfC_iff '}' s.data j).mpr ⟨hg2, hm2⟩]
      simp [hij, ht]
  · intro s h
    unfold parse_response
    rw [h]
  · intro s t e h he
    unfold parse_response
    rw [h]
    simp [he]

/-- C3 (witness): the span of `"x{a}b}c"` is `"{a}b}"` (leftmost `{` to
rightmost `}`), and the undecodable span of `"{ bad json }"` sends the
parser to the plain-text fallback on the whole input. -/
theorem C3_span_selection_witness :
    extractSpan "x\x7ba\x7db\x7dc".data = some "\x7ba\x7db\x7d".data ∧
    parse_response "\x7b bad json \x7d" = .ok (parse_plain_text "\x7b bad json \x7d") :=
  ⟨(C3_span_selection.1 "x\x7ba\x7db\x7dc" "\x7ba\x7db\x7d".data).mpr
    ⟨1, 5, by decide, by decide, by decide, by decide,
     by intro k hk
        rcases Nat.lt_or_ge k 7 with h7 | h7
        · interval_cases k
          decide
        · rw [List.getElem?_eq_none (by simpa using h7)]; simp,
     by decide⟩,
   C3_span_selection.2.2 "\x7b bad json \x7d" "\x7b bad json \x7d".data .expectingName
     (by decide) (by decide)⟩

theorem extractSpan_head (cs : List Char) (t : List Char)
    (h : extractSpan cs = some t) : ∃ t', t = '{' :: t' := by
  unfold extractSpan at h
  cases hi : idxOfC '{' cs with
  | none => rw [hi] at h; exact absurd h (by simp)
  | some i =>
    cases hj : lastIdxOfC '}' cs with
    | none => rw [hi, hj] at h; exact absurd h (by simp)
    | some j =>
      rw [hi, hj] at h
      by_cases hij : i < j
      · simp only [hij, if_true, Option.some.injEq] at h
        obtain ⟨hg, _⟩ := (idxOfC_iff '{' cs i).mp hi
        have hilen : i < cs.length := by
          by_contra hge
          rw [List.getElem?_eq_none (by omega)] at hg
          exact Option.noConfusion hg
        have hgv : cs[i] = '{' := by
          have := List.getElem?_eq_getElem hilen
          rw [this] at hg
          exact Option.some.inj hg
        rw [List.drop_eq_getElem_cons hilen, hgv] at h
        have : j - i + 1 = (j - i) + 1 := rfl
        rw [this, List.take_succ_cons] at h
        exact ⟨_, h.symm⟩
      · simp only [hij, if_false] at h
        exact absurd h (by simp)

theorem clean_json_cons_brace (l : List Char) :
    clean_json ('{' :: l) = '{' :: clean_json l := by
  unfold clean_json
  have h1 : ∀ (close : Char) (x : List Char), subComma close ('{' :: x) = '{' :: subComma close x :=
    fun close x => rfl
  have h2 : ∀ x : List Char, subLine ('{' :: x) = '{' :: subLine x := fun x => rfl
  have h3 : ∀ x : List Char, subBlock ('{' :: x) = '{' :: subBlock x := fun x => rfl
  rw [h1, h1, h2, h3]

theorem parse_ok_obj : ∀ fuel : Nat,
    (∀ cs v r, parseObj fuel cs = .ok (v, r) → ∃ m, v = .obj m) ∧
    (∀ acc cs v r, parseMembers fuel acc cs = .ok (v, r) → ∃ m, v = .obj m) := by
  intro fuel
  induction fuel with
  | zero =>
    exact ⟨fun cs v r h => absurd h (by simp [parseObj]),
           fun acc cs v r h => absurd h (by simp [parseMembers])⟩
  | succ fuel ih =>
    constructor
    · intro cs v r h
      unfold parseObj at h
      split at h
      · split at h
        · exact ⟨[], (Prod.mk.injEq .. ▸ Except.ok.inj h).1.symm ▸ rfl⟩
        · split at h
          · exact ih.2 _ _ _ _ h
          · exact absurd h (by simp)
      · exact absurd h (by simp)
    · intro acc cs v r h
      unfold parseMembers at h
      split at h
      · exact absurd h (by simp)
      · rename_i k r1 heq
        split at h
        · rename_i r2 heq2
          split at h
          · exact absurd h (by simp)
          · rename_i v' r3 heq3
            split at h
            · have := (Prod.mk.injEq .. ▸ Except.ok.inj h).1
              exact ⟨_, this.symm⟩
            · split at h
              · exact ih.2 _ _ _ _ h
              · exact absurd h (by simp)
            · exact absurd h (by simp)
        · exact absurd h (by simp)

/-- C1. Totality: for every input text — empty, garbage, or otherwise —
`parse_response` returns a complete recipe record and never lets an
exception reach the caller. In the exception-explicit embedding the result
is always `.ok`: the decoder's failure is caught by the `except` clause and
routed to the plain-text fallback, and the `AttributeError` channel of
`_parse_json_to_recipe` is unreachable because a successfully decoded span
that starts at a `{` (which the extracted span always does, and the
sanitizer preserves) is necessarily a dict. CPython's recursion limit — a
machine resource bound, not program semantics — is outside the embedding. -/
theorem C1_parse_response_total : ∀ s : String, ∃ r, parse_response s = .ok r := by
  intro s
  cases hspan : extractSpan s.data with
  | none =>
    refine ⟨parse_plain_text s, ?_⟩
    unfold parse_response
    rw [hspan]
  | some t =>
    obtain ⟨t', rfl⟩ := extractSpan_head s.data t hspan
    have hred : parse_response s =
        match jsonLoads (String.mk (clean_json ('{' :: t'))) with
        | .ok data => parse_json_to_recipe data
        | .error _ => .ok (parse_plain_text s) := by
      unfold parse_response
      rw [hspan]
    cases hload : jsonLoads (String.mk (clean_json ('{' :: t'))) with
    | error e =>
      refine ⟨parse_plain_text s, ?_⟩
      rw [hred, hload]
    | ok v =>
      obtain ⟨m, rfl⟩ : ∃ m, v = .obj m := by
        rw [clean_json_cons_brace] at hload
        simp only [jsonLoads] at hload
        split at hload
        · exact absurd hload (by simp)
        · rename_i v' rest heq
          split at hload
          · have hv : v' = v := Except.ok.inj hload
            subst hv
            have hstep : parseVal
                (3 * (skipWs (String.mk ('{' :: clean_json t')).data).length + 3)
                (skipWs (String.mk ('{' :: clean_json t')).data) =
                parseObj
                  (3 * (skipWs (String.mk ('{' :: clean_json t')).data).length + 2)
                  (skipWs (clean_json t')) := rfl
            exact (parse_ok_obj _).1 _ _ _ (hstep ▸ heq)
          · exact absurd hload (by simp)
      cases hn : parse_json_to_recipe (.obj m) with
      | error e => exact absurd hn (by simp [parse_json_to_recipe])
      | ok r =>
        refine ⟨r, ?_⟩
        rw [hred, hload]
        exact hn

theorem strMkData (s : String) : String.mk s.data = s := by cases s; rfl

theorem hexVal?_hexDigit (d : Nat) (h : d < 16) : hexVal? (hexDigit d) = some d := by
  interval_cases d <;> decide

theorem hex4_00 (n : Nat) (h : n < 256) :
    hex4 '0' '0' (hexDigit (n / 16)) (hexDigit (n % 16)) = some n := by
  unfold hex4
  rw [hexVal?_hexDigit (n / 16) (by omega), hexVal?_hexDigit (n % 16) (by omega)]
  rw [show hexVal? '0' = some 0 from rfl]
  simp
  omega

theorem jsonChar_toNat (c : Char) (h : c.toNat < 0xd800) : jsonChar c.toNat = c := by
  unfold jsonChar
  rw [if_pos (Or.inl h)]
  exact Char.ofNat_toNat c

theorem scanStr_enc : ∀ (l acc rest : List Char) (fuel : Nat),
    (encStrBody l).length < fuel →
    scanStr fuel acc (encStrBody l ++ '"' :: rest) =
      .ok (String.mk (acc.reverse ++ l), rest) := by
  intro l
  induction l with
  | nil =>
    intro acc rest fuel hf
    obtain ⟨f, rfl⟩ : ∃ f, fuel = f + 1 := ⟨fuel - 1, by simp [encStrBody] at hf; omega⟩
    simp [encStrBody, scanStr]
  | cons c l ih =>
    intro acc rest fuel hf
    by_cases hq : c = '"'
    · subst hq
      have he : encStrBody ('"' :: l) = '\\' :: '"' :: encStrBody l := by
        simp [encStrBody]
      rw [he] at hf ⊢
      obtain ⟨f, rfl⟩ : ∃ f, fuel = f + 2 := ⟨fuel - 2, by simp at hf; omega⟩
      show scanEsc (f + 1) acc ('"' :: (encStrBody l ++ '"' :: rest)) = _
      rw [show scanEsc (f + 1) acc ('"' :: (encStrBody l ++ '"' :: rest)) =
        scanStr f ('"' :: acc) (encStrBody l ++ '"' :: rest) from rfl]
      rw [ih ('"' :: acc) rest f (by simp at hf ⊢; omega)]
      simp
    · by_cases hb : c = '\\'
      · subst hb
        have he : encStrBody ('\\' :: l) = '\\' :: '\\' :: encStrBody l := by
          simp [encStrBody]
        rw [he] at hf ⊢
        obtain ⟨f, rfl⟩ : ∃ f, fuel = f + 2 := ⟨fuel - 2, by simp at hf; omega⟩
        show scanEsc (f + 1) acc ('\\' :: (encStrBody l ++ '"' :: rest)) = _
        rw [show scanEsc (f + 1) acc ('\\' :: (encStrBody l ++ '"' :: rest)) =
          scanStr f ('\\' :: acc) (encStrBody l ++ '"' :: rest) from rfl]
        rw [ih ('\\' :: acc) rest f (by simp at hf ⊢; omega)]
        simp
      · by_cases hctl : c.toNat < 0x20
        · have he : encStrBody (c :: l) =
              '\\' :: 'u' :: '0' :: '0' :: hexDigit (c.toNat / 16) ::
                hexDigit (c.toNat % 16) :: encStrBody l := by
            simp [encStrBody, hq, hb, hctl]
          rw [he] at hf ⊢
          obtain ⟨f, rfl⟩ : ∃ f, fuel = f + 2 := ⟨fuel - 2, by simp at hf; omega⟩
          show scanEsc (f + 1) acc
            ('u' :: '0' :: '0' :: hexDigit (c.toNat / 16) :: hexDigit (c.toNat % 16) ::
              (encStrBody l ++ '"' :: rest)) = _
          simp only [scanEsc]
          rw [hex4_00 c.toNat (by omega)]
          simp only []
          rw [if_neg (by simp; omega)]
          rw [jsonChar_toNat c (by omega)]
          rw [ih (c :: acc) rest f (by simp at hf ⊢; omega)]
          simp
        · have he : encStrBody (c :: l) = c :: encStrBody l := by
            simp [encStrBody, hq, hb, hctl]
          rw [he] at hf ⊢
          obtain ⟨f, rfl⟩ : ∃ f, fuel = f + 1 := ⟨fuel - 1, by simp at hf; omega⟩
          show scanStr (f + 1) acc (c :: (encStrBody l ++ '"' :: rest)) = _
          simp only [scanStr, hq, hb, hctl, if_false, if_neg]
          rw [ih (c :: acc) rest f (by simp at hf ⊢; omega)]
          simp
        

theorem skipWs_cons (c : Char) (t : List Char) (h : isJsonWs c = false) :
    skipWs (c :: t) = c :: t := by
  simp [skipWs, List.dropWhile, h]

theorem skipWs_space (t : List Char) : skipWs (' ' :: t) = skipWs t := by
  simp [skipWs, List.dropWhile]
  rfl

theorem insertKV_not_mem (m : List (String × JVal)) (k : String) (v : JVal)
    (h : k ∉ m.map Prod.fst) : insertKV m k v = m ++ [(k, v)] := by
  rw [insertKV, if_neg]
  intro hany
  rw [List.any_eq_true] at hany
  obtain ⟨p, hp, he⟩ := hany
  simp only [decide_eq_true_eq] at he
  exact h (he ▸ List.mem_map_of_mem Prod.fst hp)

/-- An encoded value that parses back to itself from any position, given
fuel beyond its own encoded length; its first character is not whitespace
and not `]`, so surrounding list/object machinery cannot misread it. -/
def GoodEnc (v : JVal) : Prop :=
  ((encJVal v).headD ' ' ≠ ']' ∧ isJsonWs ((encJVal v).headD ' ') = false ∧ encJVal v ≠ []) ∧
  ∀ (fuel : Nat) (rest : List Char), 3 * (encJVal v).length < fuel →
    parseVal fuel (encJVal v ++ rest) = .ok (v, rest)

theorem goodEnc_str (s : String) : GoodEnc (.str s) := by
  constructor
  · refine ⟨?_, ?_, ?_⟩ <;> (simp [encJVal]; try decide)
  · intro fuel rest hf
    obtain ⟨f, rfl⟩ : ∃ f, fuel = f + 1 := ⟨fuel - 1, by omega⟩
    have he : encJVal (.str s) ++ rest = '"' :: (encStrBody s.data ++ '"' :: rest) := by
      simp [encJVal]
    rw [he]
    show (scanStr ((encStrBody s.data ++ '"' :: rest).length + 1) []
        (encStrBody s.data ++ '"' :: rest)).map (fun p => (JVal.str p.1, p.2)) = _
    rw [scanStr_enc s.data [] rest _ (by simp; omega)]
    simp [strMkData, Except.map]

theorem parseElems_enc : ∀ (l : List JVal) (v : JVal) (acc : List JVal)
    (fuel : Nat) (rest : List Char),
    GoodEnc v → (∀ x ∈ l, GoodEnc x) →
    3 * (encElems (v :: l)).length + 1 < fuel →
    parseElems fuel acc (encElems (v :: l) ++ ']' :: rest) =
      .ok (.arr (acc ++ v :: l), rest) := by
  intro l
  induction l with
  | nil =>
    intro v acc fuel rest hv _ hf
    obtain ⟨f, rfl⟩ : ∃ f, fuel = f + 1 := ⟨fuel - 1, by omega⟩
    have he : encElems [v] = encJVal v := rfl
    rw [he] at hf ⊢
    simp only [parseElems]
    rw [hv.2 f (']' :: rest) (by omega)]
    simp only []
    rw [skipWs_cons ']' rest (by decide)]
    rfl
  | cons v2 l ih =>
    intro v acc fuel rest hv hl hf
    have hvne : 0 < (encJVal v).length :=
      List.length_pos.mpr hv.1.2.2
    obtain ⟨f, rfl⟩ : ∃ f, fuel = f + 1 := ⟨fuel - 1, by omega⟩
    have hlen : (encElems (v :: v2 :: l)).length =
        (encJVal v).length + 2 + (encElems (v2 :: l)).length := by
      show (encJVal v ++ ',' :: ' ' :: encElems (v2 :: l)).length = _
      simp
      omega
    have he : encElems (v :: v2 :: l) ++ ']' :: rest =
        encJVal v ++ ',' :: ' ' :: (encElems (v2 :: l) ++ ']' :: rest) := by
      show (encJVal v ++ ',' :: ' ' :: encElems (v2 :: l)) ++ ']' :: rest = _
      simp
    rw [he]
    simp only [parseElems]
    rw [hv.2 f (',' :: ' ' :: (encElems (v2 :: l) ++ ']' :: rest)) (by omega)]
    simp only []
    rw [skipWs_cons ',' _ (by decide)]
    simp only []
    rw [skipWs_space]
    have hsplit : ∃ h2 t2, encElems (v2 :: l) ++ ']' :: rest = h2 :: t2 ∧
        isJsonWs h2 = false := by
      have hgv2 := (hl v2 (by simp)).1
      cases hv2e : encJVal v2 with
      | nil => exact absurd hv2e hgv2.2.2
      | cons h2 t2 =>
        have hws : isJsonWs h2 = false := by
          have := hgv2.2.1
          rw [hv2e] at this
          simpa using this
        cases l with
        | nil =>
          refine ⟨h2, t2 ++ ']' :: rest, ?_, hws⟩
          show encJVal v2 ++ ']' :: rest = _
          rw [hv2e]
          rfl
        | cons v3 l' =>
          refine ⟨h2, t2 ++ ',' :: ' ' :: encElems (v3 :: l') ++ ']' :: rest, ?_, hws⟩
          show (encJVal v2 ++ ',' :: ' ' :: encElems (v3 :: l')) ++ ']' :: rest = _
          rw [hv2e]
          simp
    obtain ⟨h2, t2, hht, hws⟩ := hsplit
    rw [hht, skipWs_cons h2 t2 hws, ← hht]
    rw [ih v2 (acc ++ [v]) f rest (hl v2 (by simp))
      (fun x hx => hl x (by simp [hx])) (by omega)]
    simp

theorem goodEnc_arr (l : List JVal) (hl : ∀ x ∈ l, GoodEnc x) : GoodEnc (.arr l) := by
  constructor
  · exact ⟨by simp [encJVal], by simp [encJVal, isJsonWs], by simp [encJVal]⟩
  · intro fuel rest hf
    obtain ⟨f, rfl⟩ : ∃ f, fuel = f + 1 := ⟨fuel - 1, by omega⟩
    have he : encJVal (.arr l) ++ rest = '[' :: (encElems l ++ ']' :: rest) := by
      show ('[' :: encElems l ++ [']']) ++ rest = _
      simp
    rw [he]
    show parseArr f (skipWs (encElems l ++ ']' :: rest)) = _
    cases l with
    | nil =>
      show parseArr f (skipWs (']' :: rest)) = _
      rw [skipWs_cons ']' rest (by decide)]
      obtain ⟨f', rfl⟩ : ∃ f', f = f' + 1 :=
        ⟨f - 1, by have h2 : (encJVal (JVal.arr [])).length = 2 := rfl; omega⟩
      rfl
    | cons v l' =>
      have hsplit : ∃ h2 t2, encElems (v :: l') ++ ']' :: rest = h2 :: t2 ∧
          isJsonWs h2 = false ∧ h2 ≠ ']' := by
        have hgv := (hl v (by simp)).1
        cases hve : encJVal v with
        | nil => exact absurd hve hgv.2.2
        | cons h2 t2 =>
          have hws : isJsonWs h2 = false := by
            have := hgv.2.1
            rw [hve] at this
            simpa using this
          have hne : h2 ≠ ']' := by
            have := hgv.1
            rw [hve] at this
            simpa using this
          cases l' with
          | nil =>
            refine ⟨h2, t2 ++ ']' :: rest, ?_, hws, hne⟩
            show encJVal v ++ ']' :: rest = _
            rw [hve]
            rfl
          | cons v3 l'' =>
            refine ⟨h2, t2 ++ ',' :: ' ' :: encElems (v3 :: l'') ++ ']' :: rest, ?_, hws, hne⟩
            show (encJVal v ++ ',' :: ' ' :: encElems (v3 :: l'')) ++ ']' :: rest = _
            rw [hve]
            simp
      obtain ⟨h2, t2, hht, hws, hne⟩ := hsplit
      rw [hht, skipWs_cons h2 t2 hws]
      obtain ⟨f', rfl⟩ : ∃ f', f = f' + 1 :=
        ⟨f - 1, by
          have hpos : 0 < (encJVal (JVal.arr (v :: l'))).length := by
            show 0 < ('[' :: encElems (v :: l') ++ [']']).length
            simp
          omega⟩
      show (if h2 = ']' then Except.ok (JVal.arr [], t2)
            else parseElems f' [] (h2 :: t2)) = _
      rw [if_neg hne, ← hht]
      rw [parseElems_enc l' v [] f' rest (hl v (by simp))
        (fun x hx => hl x (by simp [hx])) ?_]
      · rfl
      · have hlen2 : (encJVal (.arr (v :: l'))).length = (encElems (v :: l')).length + 2 := by
          show ('[' :: encElems (v :: l') ++ [']']).length = _
          simp
        omega

/-- The text following a member's value: either the closing brace or the
separator and the remaining members. -/
def encMemTail (ms : List (String × JVal)) (rest : List Char) : List Char :=
  match ms with
  | [] => '}' :: rest
  | _ => ',' :: ' ' :: (encMembers ms ++ '}' :: rest)

theorem encMembers_shape (k : String) (v : JVal) (ms : List (String × JVal))
    (rest : List Char) :
    encMembers ((k, v) :: ms) ++ '}' :: rest =
      '"' :: (encStrBody k.data ++ '"' :: ':' :: ' ' :: (encJVal v ++ encMemTail ms rest)) := by
  cases ms with
  | nil =>
    show ('"' :: encStrBody k.data ++ '"' :: ':' :: ' ' :: encJVal v) ++ '}' :: rest = _
    simp [encMemTail]
  | cons p ms' =>
    show ('"' :: encStrBody k.data ++ '"' :: ':' :: ' ' :: encJVal v ++
        ',' :: ' ' :: encMembers (p :: ms')) ++ '}' :: rest = _
    simp [encMemTail]

theorem skipWs_goodEnc (v : JVal) (hv : GoodEnc v) (suffix : List Char) :
    skipWs (encJVal v ++ suffix) = encJVal v ++ suffix := by
  cases hve : encJVal v with
  | nil => exact absurd hve hv.1.2.2
  | cons h t =>
    rw [List.cons_append]
    apply skipWs_cons
    have := hv.1.2.1
    rw [hve] at this
    simpa using this

theorem key_not_mem_of_nodup (acc : List (String × JVal)) (k : String) (v : JVal)
    (ms : List (String × JVal))
    (h : ((acc ++ (k, v) :: ms).map Prod.fst).Nodup) : k ∉ acc.map Prod.fst := by
  rw [List.map_append] at h
  intro hk
  exact (List.disjoint_of_nodup_append h) hk (by simp)

theorem parseMembers_enc : ∀ (ms : List (String × JVal)) (k : String) (v : JVal)
    (acc : List (String × JVal)) (fuel : Nat) (rest : List Char),
    (∀ p ∈ (k, v) :: ms, GoodEnc p.2) →
    ((acc ++ (k, v) :: ms).map Prod.fst).Nodup →
    3 * (encMembers ((k, v) :: ms)).length < fuel →
    parseMembers fuel acc
      (encStrBody k.data ++ '"' :: ':' :: ' ' :: (encJVal v ++ encMemTail ms rest)) =
      .ok (.obj (acc ++ (k, v) :: ms), rest) := by
  intro ms
  induction ms with
  | nil =>
    intro k v acc fuel rest hg hnd hf
    have hml : (encMembers [(k, v)]).length =
        (encStrBody k.data).length + (encJVal v).length + 4 := by
      show ('"' :: encStrBody k.data ++ '"' :: ':' :: ' ' :: encJVal v).length = _
      simp
      omega
    obtain ⟨f, rfl⟩ : ∃ f, fuel = f + 1 := ⟨fuel - 1, by omega⟩
    simp only [parseMembers]
    rw [scanStr_enc k.data [] (':' :: ' ' :: (encJVal v ++ encMemTail [] rest)) _
      (by simp; omega)]
    simp only [List.reverse_nil, List.nil_append]
    rw [skipWs_cons ':' _ (by decide)]
    simp only []
    rw [skipWs_space, skipWs_goodEnc v (hg (k, v) (by simp))]
    rw [(hg (k, v) (by simp)).2 f (encMemTail [] rest)
      (by show 3 * (encJVal v).length < f; omega)]
    simp only []
    rw [insertKV_not_mem acc k v (key_not_mem_of_nodup acc k v [] hnd)]
    rw [show encMemTail [] rest = '}' :: rest from rfl]
    rw [skipWs_cons '}' rest (by decide)]
    rfl
  | cons p ms' ih =>
    obtain ⟨k2, v2⟩ := p
    intro k v acc fuel rest hg hnd hf
    have hml : (encMembers ((k, v) :: (k2, v2) :: ms')).length =
        (encStrBody k.data).length + (encJVal v).length + 6 +
          (encMembers ((k2, v2) :: ms')).length := by
      show ('"' :: encStrBody k.data ++ '"' :: ':' :: ' ' :: encJVal v ++
          ',' :: ' ' :: encMembers ((k2, v2) :: ms')).length = _
      simp
      omega
    obtain ⟨f, rfl⟩ : ∃ f, fuel = f + 1 := ⟨fuel - 1, by omega⟩
    simp only [parseMembers]
    rw [scanStr_enc k.data []
      (':' :: ' ' :: (encJVal v ++ encMemTail ((k2, v2) :: ms') rest)) _ (by simp; omega)]
    simp only [List.reverse_nil, List.nil_append]
    rw [skipWs_cons ':' _ (by decide)]
    simp only []
    rw [skipWs_space, skipWs_goodEnc v (hg (k, v) (by simp))]
    rw [(hg (k, v) (by simp)).2 f (encMemTail ((k2, v2) :: ms') rest)
      (by show 3 * (encJVal v).length < f; omega)]
    simp only []
    rw [insertKV_not_mem acc k v (key_not_mem_of_nodup acc k v ((k2, v2) :: ms') hnd)]
    rw [show encMemTail ((k2, v2) :: ms') rest =
      ',' :: ' ' :: (encMembers ((k2, v2) :: ms') ++ '}' :: rest) from rfl]
    rw [skipWs_cons ',' _ (by decide)]
    simp only []
    rw [skipWs_space]
    rw [encMembers_shape k2 v2 ms' rest]
    rw [skipWs_cons '"' _ (by decide)]
    simp only []
    have hstep := ih k2 v2 (acc ++ [(k, v)]) f rest
      (fun q hq => hg q (by simp at hq ⊢; tauto))
      (by rw [List.append_assoc]; simpa using hnd)
      (by omega)
    rw [hstep]
    simp

theorem goodEnc_obj (ms : List (String × JVal)) (hnd : (ms.map Prod.fst).Nodup)
    (hv : ∀ p ∈ ms, GoodEnc p.2) : GoodEnc (.obj ms) := by
  have hlen : (encJVal (.obj ms)).length = (encMembers ms).length + 2 := by
    show ('{' :: encMembers ms ++ ['}']).length = _
    simp
  constructor
  · exact ⟨by simp [encJVal], by simp [encJVal, isJsonWs], by simp [encJVal]⟩
  · intro fuel rest hf
    obtain ⟨f, rfl⟩ : ∃ f, fuel = f + 1 := ⟨fuel - 1, by omega⟩
    have he : encJVal (.obj ms) ++ rest = '{' :: (encMembers ms ++ '}' :: rest) := by
      show ('{' :: encMembers ms ++ ['}']) ++ rest = _
      simp
    rw [he]
    show parseObj f (skipWs (encMembers ms ++ '}' :: rest)) = _
    cases ms with
    | nil =>
      show parseObj f (skipWs ('}' :: rest)) = _
      rw [skipWs_cons '}' rest (by decide)]
      obtain ⟨f', rfl⟩ : ∃ f', f = f' + 1 := ⟨f - 1, by omega⟩
      rfl
    | cons p ms' =>
      obtain ⟨k, v⟩ := p
      rw [encMembers_shape k v ms' rest]
      rw [skipWs_cons '"' _ (by decide)]
      obtain ⟨f', rfl⟩ : ∃ f', f = f' + 1 := ⟨f - 1, by omega⟩
      show parseMembers f' []
        (encStrBody k.data ++ '"' :: ':' :: ' ' :: (encJVal v ++ encMemTail ms' rest)) = _
      have hstep := parseMembers_enc ms' k v [] f' rest hv hnd (by omega)
      simpa using hstep

theorem goodEnc_of_isStrV (v : JVal) (h : isStrV v = true) : GoodEnc v := by
  cases v with
  | str s => exact goodEnc_str s
  | null => exact absurd h (by decide)
  | bool b => exact absurd h (by simp [isStrV])
  | int n => exact absurd h (by simp [isStrV])
  | float f => exact absurd h (by simp [isStrV])
  | arr l => exact absurd h (by simp [isStrV])
  | obj m => exact absurd h (by simp [isStrV])

theorem goodEnc_recipe (r : ParsedRecipe) (hc : isCanonical r = true) :
    GoodEnc (recipeToJVal r) := by
  simp only [isCanonical, Bool.and_eq_true, List.all_eq_true, decide_eq_true_eq] at hc
  obtain ⟨⟨⟨⟨hname, hdesc⟩, hdiff⟩, hing⟩, hnut⟩ := hc
  apply goodEnc_obj
  · simp [recipeToJVal]
  · intro p hp
    simp only [recipeToJVal, List.mem_cons, List.not_mem_nil, or_false] at hp
    rcases hp with h | h | h | h | h | h | h | h | h | h | h <;> subst h
    · exact goodEnc_of_isStrV _ hname
    · exact goodEnc_of_isStrV _ hdesc
    · exact goodEnc_str _
    · exact goodEnc_str _
    · exact goodEnc_str _
    · exact goodEnc_of_isStrV _ hdiff
    · show GoodEnc (.arr (r.ingredients.map JVal.obj))
      apply goodEnc_arr
      intro x hx
      simp only [List.mem_map] at hx
      obtain ⟨m, hm, rfl⟩ := hx
      obtain ⟨hmn, hmv⟩ := hing m hm
      exact goodEnc_obj m hmn (fun q hq => goodEnc_of_isStrV _ (hmv q hq))
    · show GoodEnc (.arr (r.instructions.map JVal.str))
      apply goodEnc_arr
      intro x hx
      simp only [List.mem_map] at hx
      obtain ⟨s, _, rfl⟩ := hx
      exact goodEnc_str s
    · show GoodEnc (.arr (r.tips.map JVal.str))
      apply goodEnc_arr
      intro x hx
      simp only [List.mem_map] at hx
      obtain ⟨s, _, rfl⟩ := hx
      exact goodEnc_str s
    · show GoodEnc (.arr (r.tags.map JVal.str))
      apply goodEnc_arr
      intro x hx
      simp only [List.mem_map] at hx
      obtain ⟨s, _, rfl⟩ := hx
      exact goodEnc_str s
    · show GoodEnc (.obj (r.nutrition.map (fun p => (p.1, JVal.str p.2))))
      apply goodEnc_obj
      · simpa using hnut
      · intro q hq
        simp only [List.mem_map] at hq
        obtain ⟨⟨a, b⟩, _, rfl⟩ := hq
        exact goodEnc_str b

theorem extractSpan_wrap (X : List Char) :
    extractSpan ('{' :: X ++ ['}']) = some ('{' :: X ++ ['}']) := by
  have h1 : idxOfC '{' ('{' :: X ++ ['}']) = some 0 := by
    simp [idxOfC]
  have h2 : lastIdxOfC '}' ('{' :: X ++ ['}']) = some (X.length + 1) := by
    unfold lastIdxOfC
    have hrev : ('{' :: X ++ ['}']).reverse = '}' :: (X.reverse ++ ['{']) := by
      simp
    rw [hrev]
    simp [idxOfC]
  unfold extractSpan
  rw [h1, h2]
  simp only []
  rw [if_pos (by omega)]
  simp only [List.drop_zero, Nat.sub_zero]
  rw [List.take_of_length_le (by simp)]

theorem pjr_toJVal (r : ParsedRecipe) : parse_json_to_recipe (recipeToJVal r) = .ok r := by
  show parse_json_to_recipe (.obj _) = .ok r
  simp only [parse_json_to_recipe, Except.ok.injEq]
  simp [getD, getKV, List.lookup, pyStr, ingEntry, List.filterMap_map, List.map_map,
    Function.comp_def]

theorem jsonLoads_dumps (r : ParsedRecipe) (hc : isCanonical r = true) :
    jsonLoads (dumpsRecipe r) = .ok (recipeToJVal r) := by
  obtain ⟨M, hM⟩ : ∃ M, recipeToJVal r = .obj M := ⟨_, rfl⟩
  have hdata : (dumpsRecipe r).data = encJVal (recipeToJVal r) := rfl
  have hskip : skipWs (dumpsRecipe r).data = (dumpsRecipe r).data := by
    rw [hdata, hM]
    show skipWs ('{' :: encMembers M ++ ['}']) = _
    rw [List.cons_append]
    exact skipWs_cons '{' _ (by decide)
  unfold jsonLoads
  rw [hskip]
  have hval : parseVal (3 * (dumpsRecipe r).data.length + 3) ((dumpsRecipe r).data) =
      .ok (recipeToJVal r, []) := by
    conv_lhs => rw [hdata, ← List.append_nil (encJVal (recipeToJVal r))]
    exact (goodEnc_recipe r hc).2 _ []
      (by simp only [List.length_append, List.length_nil]; omega)
  simp only [hval]
  rfl

/-- The counterexample record: canonical in every field, but its `name`
is the text `",}"`, which the sanitizer's trailing-comma pass mangles
inside the serialized string literal. -/
def rcBad : ParsedRecipe :=
  { name := JVal.str ",\x7d", description := JVal.str "good",
    prep_time := "10 min", cook_time := "20 min", servings := "4",
    difficulty := JVal.str "Easy",
    ingredients := [[("amount", JVal.str "2 cups"), ("item", JVal.str "flour")]],
    instructions := ["Mix", "Bake"], tips := ["Chill"], tags := ["Easy"],
    nutrition := [("calories", "250")] }

/-- A sanitizer-clean canonical record for the amended round trip. -/
def rcGood : ParsedRecipe :=
  { name := JVal.str "Pasta", description := JVal.str "good",
    prep_time := "10 min", cook_time := "20 min", servings := "4",
    difficulty := JVal.str "Easy",
    ingredients := [[("amount", JVal.str "2 cups"), ("item", JVal.str "flour")]],
    instructions := ["Mix", "Bake"], tips := ["Chill"], tags := ["Easy"],
    nutrition := [("calories", "250")] }

/-- C5 (counterexample). The claim quantifies over every already-canonical
record, but the sanitizer runs on the serialized text before decoding and
is not scoped to string literals: `rcBad` is canonical with name `",}"`,
it serializes to text containing the quoted `",}"`, the trailing-comma
pass rewrites that to `"}"`, and the round trip returns the record with
name `"}"` — not a fixed point. -/
theorem C5_round_trip_counterexample :
    isCanonical rcBad = true ∧
    parse_response (dumpsRecipe rcBad) = .ok { rcBad with name := JVal.str "\x7d" } ∧
    ({ rcBad with name := JVal.str "\x7d" } : ParsedRecipe) ≠ rcBad := by
  refine ⟨by decide, by decide, by decide⟩

/-- C5 (amended). For every already-canonical record whose serialized JSON
text the sanitizer leaves untouched (no text field contains a
sanitizer-sensitive substring such as `,}`, `,]` or a comment opener),
running `parse_response` on the serialization reproduces the record
exactly: parse after serialization is a fixed point on sanitizer-clean
canonical records. -/
theorem C5_round_trip_amended (r : ParsedRecipe) (hc : isCanonical r = true)
    (hclean : clean_json (dumpsRecipe r).data = (dumpsRecipe r).data) :
    parse_response (dumpsRecipe r) = .ok r := by
  obtain ⟨M, hM⟩ : ∃ M, recipeToJVal r = .obj M := ⟨_, rfl⟩
  have hspan : extractSpan (dumpsRecipe r).data = some ((dumpsRecipe r).data) := by
    show extractSpan (encJVal (recipeToJVal r)) = some (encJVal (recipeToJVal r))
    rw [hM]
    show extractSpan ('{' :: encMembers M ++ ['}']) = some ('{' :: encMembers M ++ ['}'])
    exact extractSpan_wrap (encMembers M)
  have hred : parse_response (dumpsRecipe r) =
      match jsonLoads (String.mk (clean_json ((dumpsRecipe r).data))) with
      | .ok data => parse_json_to_recipe data
      | .error _ => .ok (parse_plain_text (dumpsRecipe r)) := by
    unfold parse_response
    rw [hspan]
  rw [hred, hclean, strMkData, jsonLoads_dumps r hc]
  exact pjr_toJVal r

/-- C5 (witness): the amended round trip at the concrete sanitizer-clean
canonical record `rcGood`. -/
theorem C5_round_trip_amended_witness :
    parse_response (dumpsRecipe rcGood) = .ok rcGood :=
  C5_round_trip_amended rcGood (by decide) (by decide)

end RecipeParser
